import Mathlib

/-!
Verification of the conflow pipeline orchestrator core
=======================================================

A shallow embedding of the conflow configuration-pipeline orchestrator
(`src/pipeline/*`, `src/cache/*`, `src/executors/*`) together with proofs
about its dependency-graph builder, cache-key derivation, memoization store
and stage executor.

Modelling conventions:

* Rust `PathBuf` values are plain strings; `Path::join` semantics
  (an absolute right operand replaces the base) are mirrored by `pathJoin`.
  `Path::exists` resolves a relative path against the process's current
  directory, which the filesystem model `Fs` carries explicitly as `cwd`.
* The filesystem is a finite map from resolved paths to file data.  A file
  that a cache read must parse is either a well-formed cached entry
  (`FileData.entry`) or opaque bytes (`FileData.plain`), mirroring the fact
  that `serde_json::from_str::<CachedEntry>` either succeeds or fails.
* `HashMap` fields (`Stage.env`, the per-run results table, the
  `name_to_index` map of the graph builder) are association lists.  For
  `Stage.env` the list order models the map's iteration order, which in Rust
  is an arbitrary permutation of the entries that varies between processes.
  Insertion into the results table and into `name_to_index` overwrites, as
  `HashMap::insert` does.
* BLAKE3 is a deterministic function of its input byte stream, so the cache
  fingerprint is modelled as the byte stream (`String`) fed to the hasher:
  equal streams give equal digests, and the hasher in `hash_stage` is driven
  purely by this stream.  The bytes contributed by the stage's resolved
  input files (steps handled by `collect_input_files` / `hash_file`) are
  abstracted as an opaque `inputBytes` string, fixed wherever a claim fixes
  the input-file contents.
* Subprocess behaviour is an oracle (`ProcOutput` for a single invocation,
  `Adapter` for a registered tool executor), since tool output is outside
  the program.
* `async` code in the source is sequential (one stage at a time, awaited to
  completion), so it is embedded by explicit state passing of the
  filesystem.
-/

namespace Conflow

/-! ## Paths and the filesystem model -/

/-- Model of `Path::is_absolute` for the string model of paths.  (Written on the
underlying character list so that concrete runs reduce inside the
kernel.) -/
def isAbsolute (p : String) : Bool :=
  match p.data with
  | [] => false
  | c :: _ => c == '/'

/-- Model of `str::take` of a leading prefix, on the character list (the cache key
is plain hex, one byte per character). -/
def strTake (s : String) (n : Nat) : String := ⟨s.data.take n⟩

/-- The matching suffix. -/
def strDrop (s : String) (n : Nat) : String := ⟨s.data.drop n⟩

/-- Rust `Path::join`: an absolute right-hand side replaces the base. -/
def pathJoin (base p : String) : String :=
  if isAbsolute p then p else base ++ "/" ++ p

/-! ## Pipeline data model (`src/pipeline/definition.rs`) -/

/-- Output format tags (`OutputFormat`). -/
inductive OutputFormat where
  | json | yaml | toml | cue | text
deriving DecidableEq

/-- CUE sub-commands (`CueCommand`). -/
inductive CueCommand where
  | vet | export | eval | fmt | def_
deriving DecidableEq

/-- Nickel sub-commands (`NickelCommand`). -/
inductive NickelCommand where
  | export | typecheck | query | format
deriving DecidableEq

/-- Tool binding of a stage (`Tool`), a tagged sum of the three adapters. -/
inductive Tool where
  | cue (command : CueCommand) (schemas : List String) (flags : List String)
      (out_format : Option OutputFormat)
  | nickel (command : NickelCommand) (file : Option String) (flags : List String)
      (format : Option OutputFormat)
  | shell (command : String) (sh : String)
deriving DecidableEq

/-- Input specification of a stage (`Input`). -/
inductive Input where
  | single (pattern : String)
  | multiple (patterns : List String)
  | fromStage (from_stage : String)
deriving DecidableEq

/-- Model of `Input::references_stage`. -/
def Input.references_stage : Input → Option String
  | .fromStage s => some s
  | _ => none

/-- Model of `Input::patterns` (stage references contribute no patterns). -/
def Input.patterns : Input → List String
  | .single s => [s]
  | .multiple v => v
  | .fromStage _ => []

/-- Output specification of a stage (`Output`). -/
inductive Output where
  | file (p : String)
  | formatted (path : String) (format : OutputFormat)
deriving DecidableEq

/-- Model of `Output::path`. -/
def Output.path : Output → String
  | .file p => p
  | .formatted p _ => p

/-- Pre-condition on a stage (`StageCondition`); declared by the source's
data model but, as the theorems below establish, never consulted by the
executor. -/
inductive StageCondition where
  | fileExists (p : String)
  | envSet (var : String)
  | envEquals (var : String) (value : String)
  | always
  | never
deriving DecidableEq

/-- A pipeline stage (`Stage`).  `env` is an association list whose order
models the iteration order of the Rust `HashMap`. -/
structure Stage where
  name : String
  description : Option String := none
  tool : Tool
  input : Input
  output : Option Output := none
  depends_on : List String := []
  allow_failure : Bool := false
  env : List (String × String) := []
  condition : Option StageCondition := none
deriving DecidableEq

/-- Model of `Stage::tool_name`. -/
def Stage.tool_name (s : Stage) : String :=
  match s.tool with
  | .cue _ _ _ _ => "cue"
  | .nickel _ _ _ _ => "nickel"
  | .shell _ _ => "shell"

/-- A parsed pipeline (`Pipeline`); only the fields the claims exercise. -/
structure Pipeline where
  name : String
  stages : List Stage
  env : List (String × String) := []
deriving DecidableEq

/-- Placeholder stage used only to give list indexing a default; every
index the executor uses is in range. -/
def dummyStage : Stage :=
  { name := "", tool := .shell "" "bash", input := .single "" }

/-! ## Error model (`src/errors/mod.rs`), restricted to the variants the
embedded components produce. -/

inductive ConflowError where
  | circularDependency (stages : List String)
  | unknownDependency (stage : String) (dependency : String)
  | noInputFiles (pattern : String)
  | cacheError (message : String)
  | invalidStage (stage : String) (reason : String)
  | executorNotFound (tool : String)
  | executionFailed (message : String)
  | fileWriteError (path : String) (error : String)
deriving DecidableEq

/-! ## Content hashing (`src/cache/hash.rs`)

`ContentHasher::hash_stage` feeds, in order: the stage name, the
`serde_json` serialization of the tool binding, of the input spec, of the
output spec when present, then each environment entry *in the map's
iteration order* (key bytes then value bytes), then the bytes of the
resolved input files.  The fingerprint is modelled as that byte stream. -/

/-- Canonical serialization of an output format, as `serde_json` renders the
lowercase-tagged enum. -/
def serializeFormat : OutputFormat → String
  | .json => "\x22json\x22"
  | .yaml => "\x22yaml\x22"
  | .toml => "\x22toml\x22"
  | .cue => "\x22cue\x22"
  | .text => "\x22text\x22"

def serializeCueCommand : CueCommand → String
  | .vet => "\x22vet\x22"
  | .export => "\x22export\x22"
  | .eval => "\x22eval\x22"
  | .fmt => "\x22fmt\x22"
  | .def_ => "\x22def\x22"

def serializeNickelCommand : NickelCommand → String
  | .export => "\x22export\x22"
  | .typecheck => "\x22typecheck\x22"
  | .query => "\x22query\x22"
  | .format => "\x22format\x22"

def serializeList (l : List String) : String :=
  "[" ++ String.intercalate "," l ++ "]"

/-- Models `serde_json::to_string(&stage.tool)` for the internally-tagged
`Tool` enum. -/
def serializeTool : Tool → String
  | .cue c schemas flags fmt =>
      "\x7b\x22type\x22:\x22cue\x22,\x22command\x22:" ++ serializeCueCommand c ++
        ",\x22schemas\x22:" ++ serializeList schemas ++
        ",\x22flags\x22:" ++ serializeList flags ++
        ",\x22out_format\x22:" ++
          (match fmt with | some f => serializeFormat f | none => "null") ++ "\x7d"
  | .nickel c file flags fmt =>
      "\x7b\x22type\x22:\x22nickel\x22,\x22command\x22:" ++ serializeNickelCommand c ++
        ",\x22file\x22:" ++ (match file with | some f => f | none => "null") ++
        ",\x22flags\x22:" ++ serializeList flags ++
        ",\x22format\x22:" ++
          (match fmt with | some f => serializeFormat f | none => "null") ++ "\x7d"
  | .shell cmd sh =>
      "\x7b\x22type\x22:\x22shell\x22,\x22command\x22:" ++ cmd ++
        ",\x22shell\x22:" ++ sh ++ "\x7d"

/-- Models `serde_json::to_string(&stage.input)` (untagged enum). -/
def serializeInput : Input → String
  | .single s => "\x22" ++ s ++ "\x22"
  | .multiple v => serializeList v
  | .fromStage s => "\x7b\x22from_stage\x22:\x22" ++ s ++ "\x22\x7d"

/-- Models `serde_json::to_string(&output)` (untagged enum). -/
def serializeOutput : Output → String
  | .file p => "\x22" ++ p ++ "\x22"
  | .formatted p f => "\x7b\x22path\x22:\x22" ++ p ++ "\x22,\x22format\x22:" ++ serializeFormat f ++ "\x7d"

/-- The byte stream `ContentHasher::hash_stage` feeds to BLAKE3.  `envIter`
is the iteration order in which the Rust `HashMap` yields the stage's
environment entries — the code performs no sorting.  `inputBytes` abstracts
the concatenated contents of the glob-resolved input files. -/
def ContentHasher.hashStage (stage : Stage) (envIter : List (String × String))
    (inputBytes : String) : String :=
  stage.name ++
    serializeTool stage.tool ++
    serializeInput stage.input ++
    (match stage.output with | some o => serializeOutput o | none => "") ++
    String.join (envIter.map (fun kv => kv.1 ++ kv.2)) ++
    inputBytes

/-! ## Results and cached entries (`src/executors/mod.rs`, `src/cache/mod.rs`) -/

/-- In-memory execution result (`ExecutionResult`); duration in
milliseconds. -/
structure ExecutionResult where
  success : Bool
  stdout : String
  stderr : String
  exit_code : Int
  outputs : List String
  duration : Nat
  cache_hit : Bool
deriving DecidableEq

/-- Model of `ExecutionResult::success`. -/
def ExecutionResult.mkSuccess (stdout : String) (duration : Nat)
    (outputs : List String) : ExecutionResult :=
  { success := true, stdout := stdout, stderr := "", exit_code := 0,
    outputs := outputs, duration := duration, cache_hit := false }

/-- Serializable result snapshot (`CachedResult`). -/
structure CachedResult where
  success : Bool
  stdout : String
  stderr : String
  exit_code : Int
  outputs : List String
  duration_ms : Nat
deriving DecidableEq

/-- Model of `impl From<&ExecutionResult> for CachedResult`. -/
def CachedResult.ofResult (r : ExecutionResult) : CachedResult :=
  { success := r.success, stdout := r.stdout, stderr := r.stderr,
    exit_code := r.exit_code, outputs := r.outputs, duration_ms := r.duration }

/-- Model of `impl From<CachedResult> for ExecutionResult`; sets `cache_hit`. -/
def CachedResult.toResult (c : CachedResult) : ExecutionResult :=
  { success := c.success, stdout := c.stdout, stderr := c.stderr,
    exit_code := c.exit_code, outputs := c.outputs, duration := c.duration_ms,
    cache_hit := true }

/-- On-disk cache entry (`CachedEntry`). -/
structure CachedEntry where
  timestamp : Nat
  stage_name : String
  cache_key : String
  result : CachedResult
deriving DecidableEq

/-- Contents of a file: either a parseable cached entry or opaque bytes
(anything `serde_json::from_str::<CachedEntry>` rejects). -/
inductive FileData where
  | entry (e : CachedEntry)
  | plain (s : String)
deriving DecidableEq

/-- The filesystem: the process's current directory and a finite map from
resolved paths to contents. -/
structure Fs where
  cwd : String
  files : List (String × FileData)
deriving DecidableEq

/-- Resolution performed by the OS for every syscall: a relative path is
interpreted against the current directory. -/
def Fs.resolve (fs : Fs) (p : String) : String := pathJoin fs.cwd p

def Fs.lookup (fs : Fs) (p : String) : Option FileData :=
  (fs.files.find? (fun kv => kv.1 == fs.resolve p)).map (·.2)

/-- Model of `Path::exists`. -/
def Fs.pathExists (fs : Fs) (p : String) : Bool := (fs.lookup p).isSome

/-- Model of `fs::write` (creating parent directories is implicit in the map model). -/
def Fs.write (fs : Fs) (p : String) (d : FileData) : Fs :=
  { fs with files :=
      (fs.resolve p, d) :: fs.files.filter (fun kv => kv.1 ≠ fs.resolve p) }

/-- Model of `fs::remove_file`. -/
def Fs.remove (fs : Fs) (p : String) : Fs :=
  { fs with files := fs.files.filter (fun kv => kv.1 ≠ fs.resolve p) }

/-! ## Filesystem cache (`src/cache/filesystem.rs`)

The input-file byte contribution to the fingerprint is supplied as
`ib : Stage → String` (see the hashing note above); `cache_key` then equals
`ContentHasher.hashStage` on the stage's own environment iteration order,
exactly as `FilesystemCache::cache_key` rehashes the borrowed stage. -/

structure FilesystemCache where
  cache_dir : String
  base_dir : String
deriving DecidableEq

/-- Model of `FilesystemCache::cache_key`. -/
def FilesystemCache.cacheKey (_c : FilesystemCache) (ib : Stage → String)
    (stage : Stage) : String :=
  ContentHasher.hashStage stage stage.env (ib stage)

/-- Model of `FilesystemCache::cache_path`: two-character shard directory plus
`<rest>.json`. -/
def FilesystemCache.cachePath (c : FilesystemCache) (key : String) : String :=
  pathJoin (pathJoin c.cache_dir (strTake key 2)) (strDrop key 2 ++ ".json")

/-- Model of `FilesystemCache::get`: rehash, read the sharded entry file, parse it
(a parse failure is a `CacheError`), verify every recorded output still
exists (deleting the entry and reporting a miss otherwise), and return the
snapshot converted to an `ExecutionResult` with `cache_hit = true`. -/
def FilesystemCache.get (c : FilesystemCache) (ib : Stage → String) (fs : Fs)
    (stage : Stage) : Except ConflowError (Fs × Option ExecutionResult) :=
  let key := c.cacheKey ib stage
  let path := c.cachePath key
  if ¬ fs.pathExists path then .ok (fs, none)
  else
    match fs.lookup path with
    | none => .ok (fs, none)
    | some (.plain _) => .error (.cacheError "Failed to parse cache entry")
    | some (.entry e) =>
        if e.result.outputs.all fs.pathExists then
          .ok (fs, some e.result.toResult)
        else
          .ok (fs.remove path, none)

/-- Model of `FilesystemCache::store`: rehash, create the shard directory and write
the serialized entry. -/
def FilesystemCache.store (c : FilesystemCache) (ib : Stage → String)
    (now : Nat) (fs : Fs) (stage : Stage) (result : ExecutionResult) :
    Except ConflowError Fs :=
  let key := c.cacheKey ib stage
  let path := c.cachePath key
  .ok (fs.write path (.entry
    { timestamp := now, stage_name := stage.name, cache_key := key,
      result := CachedResult.ofResult result }))

/-! ## Graph builder (`src/pipeline/dag.rs`)

petgraph's `DiGraph` numbers nodes `0..n-1` in insertion order, so the node
weight stored by `DagBuilder::build` (the stage's position in the pipeline
document) coincides with the node index.  Edges are kept in addition order;
`Graph::neighbors` iterates a node's outgoing edges in *reverse* addition
order (petgraph prepends new edges to the per-node list). -/

structure DagBuilder where
  n : Nat
  edges : List (Nat × Nat)
  names : List String
deriving DecidableEq

/-- Outgoing neighbors in petgraph iteration order (latest edge first). -/
def DagBuilder.neighbors (g : DagBuilder) (u : Nat) : List Nat :=
  (((g.edges.filter (fun e => e.1 == u)).map (·.2))).reverse

/-- Model of `index_to_name` (node index to stage name). -/
def DagBuilder.nameOf (g : DagBuilder) (i : Nat) : String := g.names.getD i ""

/-- The `name_to_index` map after inserting every stage in document order:
`HashMap::insert` overwrites, so a name maps to the *last* index bearing
it. -/
def lookupName (names : List String) (s : String) : Option Nat :=
  match names.reverse.findIdx? (fun x => x == s) with
  | some j => some (names.length - 1 - j)
  | none => none

/-- Edge addition for one stage of `DagBuilder::build`: explicit
`depends_on` edges (failing on an unknown name) then the implicit
`from_stage` edge, added only when not already present. -/
def addStageEdges (names : List String) (edges : List (Nat × Nat))
    (stage : Stage) : Except ConflowError (List (Nat × Nat)) := do
  let stageNode := (lookupName names stage.name).getD 0
  let edges ← stage.depends_on.foldlM (fun es dep =>
    match lookupName names dep with
    | some d => .ok (es ++ [(d, stageNode)])
    | none => .error (.unknownDependency stage.name dep)) edges
  match stage.input.references_stage with
  | some r =>
      match lookupName names r with
      | some d =>
          if (d, stageNode) ∈ edges then .ok edges
          else .ok (edges ++ [(d, stageNode)])
      | none => .error (.unknownDependency stage.name r)
  | none => .ok edges

/-- All edges of `DagBuilder::build`, stages processed in document order. -/
def buildEdges (names : List String) (stages : List Stage) :
    Except ConflowError (List (Nat × Nat)) :=
  stages.foldlM (addStageEdges names) []

/-! ### petgraph's `toposort`

The algorithm (petgraph `algo::toposort`): iterate the node indices in
ascending order; run an explicit-stack DFS from each yet-undiscovered node.
Processing the top of the stack either discovers it (marking it and pushing
its still-undiscovered successors, erring on a self-loop) or pops it,
finishing it on first pop after checking that every successor is already
finished (erring otherwise).  The reversed finish stack is the order.

The embedding keeps the stack head-first (head = Rust `Vec` top) and the
finish stack head-first as well, so the *final* order is the finish list
itself.  The inner loop carries fuel; `tsInner_no_fuelOut` below shows the
fuel supplied by `toposortG` is never exhausted. -/

inductive TsErr where
  | cycleAt (v : Nat)
  | fuelOut
deriving DecidableEq

/-- One DFS run of the toposort (the `while let Some(&nx) = stack.last()`
loop). State: stack (head = top), discovered set, finished set, finish
list (head = most recently finished, i.e. already in final order). -/
def tsInner (g : DagBuilder) : Nat → List Nat → Finset Nat → Finset Nat →
    List Nat → Except TsErr (Finset Nat × Finset Nat × List Nat)
  | 0, _, _, _, _ => .error .fuelOut
  | _ + 1, [], disc, fin, fstack => .ok (disc, fin, fstack)
  | fuel + 1, nx :: rest, disc, fin, fstack =>
      if nx ∈ disc then
        -- second visit: pop, finish on first pop
        if nx ∈ fin then tsInner g fuel rest disc fin fstack
        else
          if (g.neighbors nx).all (fun s => s ∈ fin) then
            tsInner g fuel rest disc (insert nx fin) (nx :: fstack)
          else .error (.cycleAt nx)
      else
        -- first visit: mark discovered, check self-loop, push successors
        if nx ∈ g.neighbors nx then .error (.cycleAt nx)
        else
          tsInner g fuel
            (((g.neighbors nx).filter (fun s => s ∉ insert nx disc)).reverse
              ++ nx :: rest)
            (insert nx disc) fin fstack

/-- Fuel supplied to each inner DFS; `tsInner_no_fuelOut` proves it
suffices. -/
def innerFuel (g : DagBuilder) : Nat :=
  g.n * (g.edges.length + 2) + 2

/-- The outer loop of `toposort` over node identifiers in ascending
order. -/
def tsOuterGo (g : DagBuilder) : List Nat → Finset Nat → Finset Nat →
    List Nat → Except TsErr (List Nat)
  | [], _, _, fstack => .ok fstack
  | i :: is, disc, fin, fstack =>
      if i ∈ disc then tsOuterGo g is disc fin fstack
      else
        match tsInner g (innerFuel g) [i] disc fin fstack with
        | .ok (disc', fin', fstack') => tsOuterGo g is disc' fin' fstack'
        | .error e => .error e

/-- petgraph `toposort` over the built graph. -/
def toposortG (g : DagBuilder) : Except TsErr (List Nat) :=
  tsOuterGo g (List.range g.n) ∅ ∅ []

/-! ### `find_cycle_members`

`DagBuilder::find_cycle_members` seeds its list with the reported node's
name and then records the name of every node a DFS from that node
discovers (the closure's `visited` set is empty at the first event, so the
`Break` arm never fires and the start node is recorded twice).  Only the
head of the list matters to the theorems below. -/

/-- DFS preorder from a worklist (petgraph `depth_first_search` discover
events), fuelled. -/
def dfsPre (g : DagBuilder) : Nat → List Nat → Finset Nat → List Nat
  | 0, _, _ => []
  | _ + 1, [], _ => []
  | fuel + 1, v :: ws, seen =>
      if v ∈ seen then dfsPre g fuel ws seen
      else v :: dfsPre g fuel (g.neighbors v ++ ws) (insert v seen)

/-- Model of `DagBuilder::find_cycle_members`. -/
def DagBuilder.find_cycle_members (g : DagBuilder) (start : Nat) : List String :=
  g.nameOf start ::
    (dfsPre g (g.n * (g.edges.length + 1) + g.edges.length + 2) [start] ∅).map g.nameOf

/-- Model of `DagBuilder::validate_acyclic`. -/
def DagBuilder.validate_acyclic (g : DagBuilder) : Except ConflowError Unit :=
  match toposortG g with
  | .ok _ => .ok ()
  | .error (.cycleAt v) => .error (.circularDependency (g.find_cycle_members v))
  | .error .fuelOut => .error (.circularDependency [])

/-- Model of `DagBuilder::build`: add one node per stage (weight = document index),
add explicit and implicit edges, then validate acyclicity. -/
def DagBuilder.build (p : Pipeline) : Except ConflowError DagBuilder := do
  let names := p.stages.map (·.name)
  let edges ← buildEdges names p.stages
  let g : DagBuilder := { n := p.stages.length, edges := edges, names := names }
  g.validate_acyclic
  .ok g

/-- Model of `DagBuilder::topological_order`: rerun the sort and return the node
weights, which equal the node indices. -/
def DagBuilder.topological_order (g : DagBuilder) :
    Except ConflowError (List Nat) :=
  match toposortG g with
  | .ok l => .ok l
  | .error (.cycleAt v) => .error (.circularDependency (g.find_cycle_members v))
  | .error .fuelOut => .error (.circularDependency [])

/-! ## Tool executors (`src/executors/*`)

A subprocess invocation is summarized by the oracle `ProcOutput`; a
registered executor is an `Adapter` whose `run` mirrors the trait method
`Executor::execute` (it may read and write workspace files, hence the
threaded `Fs`). -/

/-- Outcome of `Command::output()`. -/
structure ProcOutput where
  success : Bool
  code : Int
  stdout : String
  stderr : String
deriving DecidableEq

/-- Model of `resolve_globs` (`src/executors/mod.rs`): expand each pattern against
the base directory, failing with `NoInputFiles` on the first pattern with
no matches.  `globFn` is the filesystem's answer to one expanded glob. -/
def resolveGlobs (globFn : String → List String) :
    List String → String → Except ConflowError (List String)
  | [], _ => .ok []
  | pattern :: rest, baseDir =>
      let fullPattern :=
        if isAbsolute pattern then pattern else pathJoin baseDir pattern
      let matched := globFn fullPattern
      if matched.isEmpty then .error (.noInputFiles pattern)
      else do
        let more ← resolveGlobs globFn rest baseDir
        .ok (matched ++ more)

/-- Model of `ShellExecutor::execute`: spawn `shell -c command` in the workspace
root; on success report the declared output path *verbatim* (the command is
trusted to have produced it), on failure report no outputs. -/
def ShellExecutor.execute (stage : Stage) (out : ProcOutput) :
    Except ConflowError ExecutionResult :=
  match stage.tool with
  | .shell _ _ =>
      let outputs := match stage.output with
        | some o => [o.path]
        | none => []
      if out.success then
        .ok { success := true, stdout := out.stdout, stderr := out.stderr,
              exit_code := 0, outputs := outputs, duration := 0,
              cache_hit := false }
      else
        .ok { success := false, stdout := out.stdout, stderr := out.stderr,
              exit_code := out.code, outputs := [], duration := 0,
              cache_hit := false }
  | _ => .error (.invalidStage stage.name "Expected Shell tool")

/-- Model of `CueExecutor::write_output` (identical in `NickelExecutor`): join the
declared output path to the workspace root, write the captured stdout
there, and report the joined path. -/
def CueExecutor.write_output (stage : Stage) (stdout : String)
    (working_dir : String) (fs : Fs) : List String × Fs :=
  match stage.output with
  | none => ([], fs)
  | some o =>
      let outputPath := pathJoin working_dir o.path
      ([outputPath], fs.write outputPath (.plain stdout))

/-- Input resolution of `CueExecutor::build_command`: prefer the inputs the
executor resolved from the upstream stage, otherwise expand the stage's
own glob patterns (empty pattern list resolves to no files). -/
def CueExecutor.resolveInputs (globFn : String → List String) (stage : Stage)
    (working_dir : String) (resolved_inputs : Option (List String)) :
    Except ConflowError (List String) :=
  match resolved_inputs with
  | some r => .ok r
  | none =>
      if stage.input.patterns.isEmpty then .ok []
      else resolveGlobs globFn stage.input.patterns working_dir

/-- Post-processing of `CueExecutor::execute` once the subprocess has
exited: on success write the declared output and report it, on failure
report the captured stderr and exit code with no outputs. -/
def CueExecutor.finish (proc : ProcOutput) (stage : Stage)
    (working_dir : String) (fs : Fs) : ExecutionResult × Fs :=
  if proc.success then
    let (outputs, fs') :=
      CueExecutor.write_output stage proc.stdout working_dir fs
    ({ success := true, stdout := proc.stdout, stderr := proc.stderr,
       exit_code := 0, outputs := outputs, duration := 0,
       cache_hit := false }, fs')
  else
    ({ success := false, stdout := proc.stdout, stderr := proc.stderr,
       exit_code := proc.code, outputs := [], duration := 0,
       cache_hit := false }, fs)

/-- Model of `CueExecutor::execute`: build the command (resolving inputs — the step
that can fail with `NoInputFiles`), run it, and post-process. -/
def CueExecutor.execute (globFn : String → List String) (proc : ProcOutput)
    (stage : Stage) (working_dir : String)
    (resolved_inputs : Option (List String)) (fs : Fs) :
    Except ConflowError (ExecutionResult × Fs) :=
  match stage.tool with
  | .cue _ _ _ _ => do
      let _inputFiles ← CueExecutor.resolveInputs globFn stage working_dir
        resolved_inputs
      .ok (CueExecutor.finish proc stage working_dir fs)
  | _ => .error (.invalidStage stage.name "Expected CUE tool")

/-- A registered tool executor, as stored in the executor's map. -/
structure Adapter where
  run : Stage → String → List (String × String) → Option (List String) →
    Fs → Except ConflowError (ExecutionResult × Fs)

/-- The adapter the C7/C8 scenarios register under `"cue"`. -/
def cueAdapter (globFn : String → List String) (proc : ProcOutput) : Adapter :=
  ⟨fun stage wd _env resolved fs => CueExecutor.execute globFn proc stage wd resolved fs⟩

/-- An adapter with a fixed result that leaves the filesystem alone, for
scenarios where only the executor's bookkeeping matters. -/
def constAdapter (r : ExecutionResult) : Adapter :=
  ⟨fun _ _ _ _ fs => .ok (r, fs)⟩

/-! ## Pipeline executor (`src/pipeline/executor.rs`) -/

/-- Execution options (`ExecutionOptions`). -/
structure ExecutionOptions where
  no_cache : Bool := false
  dry_run : Bool := false
  stages : List String := []
  verbose : Bool := false
deriving DecidableEq

/-- Result of a whole run (`PipelineResult`); the per-run table is an
association list with insert-overwrite semantics. -/
structure PipelineResult where
  results : List (String × ExecutionResult)
  success : Bool
deriving DecidableEq

/-- Model of `HashMap::insert` on the per-run results table. -/
def insertResult (rs : List (String × ExecutionResult)) (k : String)
    (v : ExecutionResult) : List (String × ExecutionResult) :=
  (k, v) :: rs.filter (fun kv => kv.1 ≠ k)

def lookupResult (rs : List (String × ExecutionResult)) (k : String) :
    Option ExecutionResult :=
  (rs.find? (fun kv => kv.1 == k)).map (·.2)

/-- Model of `env.extend(stage.env.clone())` on the cloned global map: stage entries
overwrite global ones. -/
def mergeEnv (global stageEnv : List (String × String)) :
    List (String × String) :=
  global.filter (fun kv => ¬ stageEnv.any (fun kv' => kv'.1 == kv.1)) ++ stageEnv

/-- Model of `PipelineExecutor::resolve_stage_input`: an upstream reference is
looked up in the per-run table; a miss is an `ExecutionFailed` error (which
the caller propagates, aborting the run). -/
def resolveStageInput (stage : Stage)
    (results : List (String × ExecutionResult)) :
    Except ConflowError (Option (List String)) :=
  match stage.input.references_stage with
  | some fromStage =>
      match lookupResult results fromStage with
      | some prev => .ok (some prev.outputs)
      | none => .error (.executionFailed
          ("Stage depends on " ++ fromStage ++ " which has not been executed"))
  | none => .ok none

/-- The cache-probe step of the loop body: `if !options.no_cache { if let
Some(cache) = self.cache { if let Ok(Some(cached)) = cache.get(stage) ... } }`.
A lookup error or a miss both fall through to execution; only a successful
lookup (which may have evicted a stale entry, hence the returned
filesystem) short-circuits. -/
def cacheProbe (opts : ExecutionOptions) (cacheOpt : Option FilesystemCache)
    (ib : Stage → String) (fs : Fs) (stage : Stage) :
    Fs × Option ExecutionResult :=
  if opts.no_cache then (fs, none)
  else
    match cacheOpt with
    | none => (fs, none)
    | some c =>
        match c.get ib fs stage with
        | .ok (fs', res) => (fs', res)
        | .error _ => (fs, none)

/-- The best-effort store of a successful result: `let _ =
cache_write.store(stage, &result)`. -/
def storeStep (opts : ExecutionOptions) (cacheOpt : Option FilesystemCache)
    (ib : Stage → String) (now : Nat) (fs : Fs) (stage : Stage)
    (result : ExecutionResult) : Fs :=
  if opts.no_cache then fs
  else
    match cacheOpt with
    | none => fs
    | some c =>
        match c.store ib now fs stage result with
        | .ok f => f
        | .error _ => fs

/-- Model of `PipelineExecutor::execute_stage`: look up the registered adapter,
resolve upstream inputs from the per-run table, invoke the adapter. -/
def execStage (adapters : String → Option Adapter) (stage : Stage)
    (working_dir : String) (env : List (String × String))
    (results : List (String × ExecutionResult)) (fs : Fs) :
    Except ConflowError (ExecutionResult × Fs) := do
  let adapter ← match adapters stage.tool_name with
    | some a => Except.ok a
    | none => Except.error (ConflowError.executorNotFound stage.tool_name)
  let resolved ← resolveStageInput stage results
  adapter.run stage working_dir env resolved fs

/-- The `for idx in stages_to_run` loop of `PipelineExecutor::execute`.
`cacheOpt` is `self.cache` (`none` when no cache layer is installed),
`adapters` the registered executor map.  Returns the per-run table, the
filesystem, and the `all_success` flag; an error return models the `?`
propagation that aborts the whole run. -/
def runStages (p : Pipeline) (working_dir : String)
    (opts : ExecutionOptions) (cacheOpt : Option FilesystemCache)
    (ib : Stage → String) (adapters : String → Option Adapter) (now : Nat) :
    List Nat → Fs → List (String × ExecutionResult) →
    Except ConflowError (List (String × ExecutionResult) × Fs × Bool)
  | [], fs, results => .ok (results, fs, true)
  | idx :: rest, fs, results =>
      let stage := p.stages.getD idx dummyStage
      match cacheProbe opts cacheOpt ib fs stage with
      | (fs', some cached) =>
          runStages p working_dir opts cacheOpt ib adapters now rest fs'
            (insertResult results stage.name cached)
      | (fs', none) =>
          match execStage adapters stage working_dir
            (mergeEnv p.env stage.env) results fs' with
          | .error e => .error e
          | .ok (result, fs₂) =>
              if result.success then
                runStages p working_dir opts cacheOpt ib adapters now rest
                  (storeStep opts cacheOpt ib now fs₂ stage result)
                  (insertResult results stage.name result)
              else
                if ¬ stage.allow_failure then
                  .ok (insertResult results stage.name result, fs₂, false)
                else
                  runStages p working_dir opts cacheOpt ib adapters now rest
                    fs₂ (insertResult results stage.name result)

/-- Model of `PipelineExecutor::execute`: build and validate the DAG, compute the
order, filter to the requested stages (purely subtractive), honour
`dry_run`, then run the loop. -/
def PipelineExecutor.execute (p : Pipeline) (working_dir : String)
    (opts : ExecutionOptions) (cacheOpt : Option FilesystemCache)
    (ib : Stage → String) (adapters : String → Option Adapter) (now : Nat)
    (fs : Fs) : Except ConflowError (PipelineResult × Fs) := do
  let dag ← DagBuilder.build p
  let order ← dag.topological_order
  let toRun := if opts.stages.isEmpty then order
    else order.filter (fun idx => opts.stages.contains (p.stages.getD idx dummyStage).name)
  if opts.dry_run then
    .ok ({ results := [], success := true }, fs)
  else do
    let (results, fs', success) ←
      runStages p working_dir opts cacheOpt ib adapters now toRun fs []
    .ok ({ results := results, success := success }, fs')

/-! ## Correctness of the embedded toposort

The development follows the classic grey-chain argument for explicit-stack
DFS: the discovered-but-unfinished nodes form a chain linked by edges, each
with its still-pending pushed successors sitting above it on the stack.
`TsBInv` captures the stack decomposition, `FinInv` the properties of the
finish list, and `tsInner_spec` is the master induction. -/

/-- Endpoints of every edge are valid node indices.  `DagBuilder::build`
only ever adds edges between nodes returned by `name_to_index`. -/
def DagBuilder.WF (g : DagBuilder) : Prop :=
  ∀ e ∈ g.edges, e.1 < g.n ∧ e.2 < g.n

theorem mem_neighbors {g : DagBuilder} {u v : Nat} :
    v ∈ g.neighbors u ↔ (u, v) ∈ g.edges := by
  unfold DagBuilder.neighbors
  simp only [List.mem_reverse, List.mem_map, List.mem_filter, beq_iff_eq]
  constructor
  · rintro ⟨⟨a, b⟩, ⟨hm, h1⟩, h2⟩
    simp_all
  · intro h
    exact ⟨(u, v), ⟨h, rfl⟩, rfl⟩

theorem neighbors_length_le (g : DagBuilder) (u : Nat) :
    (g.neighbors u).length ≤ g.edges.length := by
  unfold DagBuilder.neighbors
  simp only [List.length_reverse, List.length_map]
  exact List.length_filter_le _ _

/-- A directed cycle through `v`: edges `v → l₁ → l₂ → ⋯ → v`. -/
def IsCycleFrom (g : DagBuilder) (v : Nat) (l : List Nat) : Prop :=
  List.Chain (fun u w => (u, w) ∈ g.edges) v (l ++ [v])

/-- Stack decomposition: blocks, top first, each a grey node with the
pending entries pushed above it; `c0` is the outer loop's freshly pushed
root when no node is grey yet. -/
def stackOf (blocks : List (List Nat × Nat)) (c0 : List Nat) : List Nat :=
  (blocks.map (fun b => b.1 ++ [b.2])).flatten ++ c0

theorem stackOf_nil (c0 : List Nat) : stackOf [] c0 = c0 := by
  simp [stackOf]

theorem stackOf_cons (c : List Nat) (gv : Nat) (bs : List (List Nat × Nat))
    (c0 : List Nat) : stackOf ((c, gv) :: bs) c0 = c ++ gv :: stackOf bs c0 := by
  simp [stackOf]

/-- The grey-chain invariant of the inner DFS loop. -/
structure TsBInv (g : DagBuilder) (stack : List Nat) (disc fin : Finset Nat)
    (blocks : List (List Nat × Nat)) (c0 : List Nat) : Prop where
  hstack : stack = stackOf blocks c0
  hgrey : ∀ v, (v ∈ disc ∧ v ∉ fin) ↔ v ∈ blocks.map (·.2)
  hnodup : (blocks.map (·.2)).Nodup
  hchain : List.Chain' (fun a b => (b, a) ∈ g.edges) (blocks.map (·.2))
  hpend : ∀ b ∈ blocks, ∀ v ∈ b.1, v ∈ g.neighbors b.2
  hdone : ∀ b ∈ blocks, ∀ v ∈ g.neighbors b.2, v ∈ disc ∨ v ∈ b.1
  hshadow : ∀ pre b post, blocks = pre ++ b :: post → ∀ v ∈ b.1, v ∈ disc →
      v ∈ fin ∨ v ∈ pre.map (·.2)
  hc0 : (blocks = [] ∧ (c0 = [] ∨ ∃ r, c0 = [r] ∧ r ∉ disc)) ∨
      (blocks ≠ [] ∧ c0 = [])
  hself : ∀ b ∈ blocks, b.2 ∉ g.neighbors b.2
  hfin : fin ⊆ disc

/-- Properties of the finish list (already in final order, head = most
recently finished): it enumerates `fin` without duplicates, and every
successor of an element appears strictly after it. -/
structure FinInv (g : DagBuilder) (fin : Finset Nat) (fstack : List Nat) :
    Prop where
  hnodup : fstack.Nodup
  hmem : ∀ v, v ∈ fstack ↔ v ∈ fin
  horder : ∀ pre v post, fstack = pre ++ v :: post →
      ∀ w ∈ g.neighbors v, w ∈ post

/-- Range bounds carried through the loop. -/
structure WfSt (g : DagBuilder) (stack : List Nat) (disc : Finset Nat) :
    Prop where
  hstack : ∀ v ∈ stack, v < g.n
  hdisc : ∀ v ∈ disc, v < g.n

/-- Termination measure of the inner loop: each step either discovers a
node (paying for at most one push per edge) or shortens the stack. -/
def tsMeasure (g : DagBuilder) (stack : List Nat) (disc : Finset Nat) : Nat :=
  (g.n - disc.card) * (g.edges.length + 2) + stack.length

end Conflow
namespace Conflow

theorem stackOf_eq_nil {blocks : List (List Nat × Nat)} {c0 : List Nat}
    (h : stackOf blocks c0 = []) : blocks = [] ∧ c0 = [] := by
  cases blocks with
  | nil => simpa [stackOf] using h
  | cons b bs =>
      obtain ⟨c, gv⟩ := b
      rw [stackOf_cons] at h
      simp at h

theorem chain_snoc {R : Nat → Nat → Prop} :
    ∀ (pl : List Nat) (a b c : Nat), List.Chain R a (pl ++ [b]) → R b c →
    List.Chain R a (pl ++ [b] ++ [c])
  | [], a, b, c, h, hbc => by
      rcases h with _ | ⟨hab, _⟩
      exact List.Chain.cons hab (List.Chain.cons hbc List.Chain.nil)
  | x :: pl', a, b, c, h, hbc => by
      rcases h with _ | ⟨hax, hrest⟩
      exact List.Chain.cons hax (chain_snoc pl' x b c hrest hbc)

theorem chain_path_to_head (g : DagBuilder) :
    ∀ (t : List Nat) (h : Nat),
    List.Chain' (fun a b => (b, a) ∈ g.edges) (h :: t) →
    ∀ a ∈ t, ∃ pl, List.Chain (fun u w => (u, w) ∈ g.edges) a (pl ++ [h])
  | [], _, _, a, ha => absurd ha (List.not_mem_nil a)
  | b :: t', h, hc, a, ha => by
      rw [List.chain'_cons] at hc
      obtain ⟨hbh, hc'⟩ := hc
      rcases List.mem_cons.mp ha with rfl | ha'
      · exact ⟨[], List.Chain.cons hbh List.Chain.nil⟩
      · obtain ⟨pl, hpl⟩ := chain_path_to_head g t' b hc' a ha'
        exact ⟨pl ++ [b], chain_snoc pl a b h hpl hbh⟩

end Conflow
namespace Conflow



theorem head_block_of_disc {g : DagBuilder} {stack : List Nat}
    {disc fin : Finset Nat} {blocks : List (List Nat × Nat)} {c0 : List Nat}
    {nx : Nat} {rest : List Nat}
    (inv : TsBInv g stack disc fin blocks c0) (hs : stack = nx :: rest)
    (hd : nx ∈ disc) :
    ∃ c gv bs, blocks = (c, gv) :: bs ∧ c0 = [] ∧
      ((c = [] ∧ nx = gv ∧ rest = stackOf bs []) ∨
       (∃ c', c = nx :: c' ∧ rest = c' ++ gv :: stackOf bs [])) := by
  cases blocks with
  | nil =>
      rcases inv.hc0 with ⟨-, hc0⟩ | ⟨hne, -⟩
      · rcases hc0 with rfl | ⟨r, rfl, hr⟩
        · rw [inv.hstack, stackOf_nil] at hs; exact absurd hs.symm (List.cons_ne_nil _ _)
        · rw [inv.hstack, stackOf_nil] at hs
          obtain ⟨rfl, -⟩ := List.cons.inj hs.symm
          exact absurd hd hr
      · exact absurd rfl hne
  | cons b bs =>
      obtain ⟨c, gv⟩ := b
      have hc0 : c0 = [] := by
        rcases inv.hc0 with ⟨h, -⟩ | ⟨-, h⟩
        · exact absurd h (List.cons_ne_nil _ _)
        · exact h
      subst hc0
      have hst := inv.hstack
      rw [stackOf_cons, hs] at hst
      refine ⟨c, gv, bs, rfl, rfl, ?_⟩
      cases c with
      | nil =>
          simp only [List.nil_append] at hst
          obtain ⟨rfl, rfl⟩ := List.cons.inj hst
          exact Or.inl ⟨rfl, rfl, rfl⟩
      | cons x c' =>
          simp only [List.cons_append] at hst
          obtain ⟨rfl, hr⟩ := List.cons.inj hst
          exact Or.inr ⟨c', rfl, hr⟩


theorem tsMeasure_discover (g : DagBuilder) (pushed rest : List Nat)
    (disc : Finset Nat) (nx : Nat) (hp : pushed.length ≤ g.edges.length)
    (hnx : nx < g.n) (hd : nx ∉ disc) (hdisc : ∀ v ∈ disc, v < g.n) :
    tsMeasure g (pushed ++ nx :: rest) (insert nx disc) + 2 ≤
      tsMeasure g (nx :: rest) disc := by
  have hcard := Finset.card_insert_of_not_mem hd
  have hsub : insert nx disc ⊆ Finset.range g.n := by
    intro v hv
    rw [Finset.mem_range]
    rcases Finset.mem_insert.mp hv with rfl | h
    · exact hnx
    · exact hdisc v h
  have hle : (insert nx disc).card ≤ g.n := by
    have := Finset.card_le_card hsub
    simpa using this
  rw [hcard] at hle
  have hexp : (g.n - disc.card) * (g.edges.length + 2) =
      (g.n - (disc.card + 1)) * (g.edges.length + 2) + (g.edges.length + 2) := by
    have h1 : g.n - disc.card = (g.n - (disc.card + 1)) + 1 := by omega
    rw [h1, add_mul, one_mul]
  simp only [tsMeasure, hcard, List.length_append, List.length_cons]
  omega

set_option maxHeartbeats 1000000 in
theorem tsInner_spec (g : DagBuilder) (hgwf : g.WF) :
    ∀ fuel stack disc fin fstack blocks c0,
    TsBInv g stack disc fin blocks c0 → FinInv g fin fstack →
    WfSt g stack disc → tsMeasure g stack disc < fuel →
    (∃ disc' fin' fstack',
        tsInner g fuel stack disc fin fstack = .ok (disc', fin', fstack') ∧
        disc' = fin' ∧ disc ⊆ disc' ∧ (∀ v ∈ stack, v ∈ disc') ∧
        FinInv g fin' fstack' ∧ (∀ v ∈ disc', v < g.n)) ∨
    (∃ e l, tsInner g fuel stack disc fin fstack = .error (.cycleAt e) ∧
        IsCycleFrom g e l) := by
  intro fuel
  induction fuel with
  | zero =>
      intro stack disc fin fstack blocks c0 _ _ _ hm
      exact absurd hm (Nat.not_lt_zero _)
  | succ fuel ih =>
      intro stack disc fin fstack blocks c0 inv finv wf hm
      match stack with
      | [] =>
          left
          refine ⟨disc, fin, fstack, rfl, ?_, Finset.Subset.refl _, ?_, finv, wf.hdisc⟩
          · -- stack empty ⇒ no block ⇒ no grey ⇒ disc = fin
            obtain ⟨hb, -⟩ := stackOf_eq_nil inv.hstack.symm
            apply Finset.Subset.antisymm _ inv.hfin
            intro v hv
            by_contra hvf
            have := (inv.hgrey v).mp ⟨hv, hvf⟩
            simp [hb] at this
          · intro v hv; exact absurd hv (List.not_mem_nil v)
      | nx :: rest =>
          by_cases hd : nx ∈ disc
          · by_cases hf : nx ∈ fin
            · -- pop-skip
              obtain ⟨c, gv, bs, hbl, hc0e, hcase⟩ := head_block_of_disc inv rfl hd
              subst hbl
              subst hc0e
              rcases hcase with ⟨hcnil, hnxgv, hrest⟩ | ⟨c', rfl, hrest⟩
              · -- nx = gv is grey, contradicting nx ∈ fin
                have hgy := (inv.hgrey gv).mpr (by simp)
                rw [← hnxgv] at hgy
                exact absurd hf hgy.2
              · -- genuine skip of a pending duplicate entry
                have inv' : TsBInv g rest disc fin ((c', gv) :: bs) [] := by
                  refine ⟨?_, ?_, ?_, ?_, ?_, ?_, ?_, ?_, ?_, inv.hfin⟩
                  · rw [hrest, stackOf_cons]
                  · intro v; have := inv.hgrey v; simpa using this
                  · have := inv.hnodup; simpa using this
                  · have := inv.hchain; simpa using this
                  · intro b hb v hv
                    rcases List.mem_cons.mp hb with rfl | hb'
                    · exact inv.hpend (nx :: c', gv) (List.mem_cons_self _ _)
                        v (List.mem_cons_of_mem _ hv)
                    · exact inv.hpend b (List.mem_cons_of_mem _ hb') v hv
                  · intro b hb v hv
                    rcases List.mem_cons.mp hb with rfl | hb'
                    · rcases inv.hdone (nx :: c', gv) (List.mem_cons_self _ _) v hv with h | h
                      · exact Or.inl h
                      · rcases List.mem_cons.mp h with rfl | h'
                        · exact Or.inl hd
                        · exact Or.inr h'
                    · exact inv.hdone b (List.mem_cons_of_mem _ hb') v hv
                  · intro pre b post hsplit v hv hvd
                    cases pre with
                    | nil =>
                        simp only [List.nil_append] at hsplit
                        obtain ⟨rfl, rfl⟩ := List.cons.inj hsplit
                        have := inv.hshadow [] (nx :: c', gv) bs rfl v
                          (List.mem_cons_of_mem _ hv) hvd
                        simpa using this
                    | cons p pre' =>
                        simp only [List.cons_append] at hsplit
                        obtain ⟨rfl, hbs⟩ := List.cons.inj hsplit
                        have := inv.hshadow ((nx :: c', gv) :: pre') b post
                          (by rw [hbs]; rfl) v hv hvd
                        simpa using this
                  · exact Or.inr ⟨List.cons_ne_nil _ _, rfl⟩
                  · intro b hb
                    rcases List.mem_cons.mp hb with rfl | hb'
                    · exact inv.hself (nx :: c', gv) (List.mem_cons_self _ _)
                    · exact inv.hself b (List.mem_cons_of_mem _ hb')
                have wf' : WfSt g rest disc :=
                  ⟨fun v hv => wf.hstack v (List.mem_cons_of_mem _ hv), wf.hdisc⟩
                have hm' : tsMeasure g rest disc < fuel := by
                  simp only [tsMeasure, List.length_cons] at hm ⊢; omega
                have heq : tsInner g (fuel + 1) (nx :: rest) disc fin fstack =
                    tsInner g fuel rest disc fin fstack := by
                  simp only [tsInner, if_pos hd, if_pos hf]
                rcases ih rest disc fin fstack ((c', gv) :: bs) [] inv' finv wf' hm' with
                  ⟨d', f', fs', hout, hdf, hsub, hstk, finv', hlt⟩ | ⟨e, l, hout, hcyc⟩
                · left
                  refine ⟨d', f', fs', heq ▸ hout, hdf, hsub, ?_, finv', hlt⟩
                  intro v hv
                  rcases List.mem_cons.mp hv with rfl | hv'
                  · exact hsub hd
                  · exact hstk v hv'
                · right
                  exact ⟨e, l, heq ▸ hout, hcyc⟩
            · by_cases hall : (g.neighbors nx).all (fun s => s ∈ fin)
              · -- finish: first pop of a grey node, all successors finished
                obtain ⟨c, gv, bs, hbl, hc0e, hcase⟩ := head_block_of_disc inv rfl hd
                subst hbl
                subst hc0e
                rcases hcase with ⟨rfl, hnxgv, hrest⟩ | ⟨c', rfl, hrest⟩
                case _ =>
                  subst hnxgv
                  have hallm : ∀ s ∈ g.neighbors nx, s ∈ fin := by
                    simpa using hall
                  have inv' : TsBInv g rest disc (insert nx fin) bs [] := by
                    refine ⟨hrest, ?_, ?_, ?_, ?_, ?_, ?_, ?_, ?_, ?_⟩
                    · intro v
                      have hold := inv.hgrey v
                      simp only [List.map_cons] at hold
                      by_cases hv : v = nx
                      · subst hv
                        have hnm : v ∉ List.map (fun x => x.2) bs := by
                          have := inv.hnodup
                          simp only [List.map_cons, List.nodup_cons] at this
                          exact this.1
                        simp [hnm]
                      · simp only [Finset.mem_insert]
                        constructor
                        · rintro ⟨h1, h2⟩
                          have := hold.mp ⟨h1, fun hf' => h2 (Or.inr hf')⟩
                          rcases List.mem_cons.mp this with rfl | h
                          · exact absurd rfl hv
                          · exact h
                        · intro h
                          have := hold.mpr (List.mem_cons_of_mem _ h)
                          exact ⟨this.1, fun hc => this.2 (hc.resolve_left hv)⟩
                    · have := inv.hnodup
                      simp only [List.map_cons, List.nodup_cons] at this
                      exact this.2
                    · have := inv.hchain
                      simp only [List.map_cons] at this
                      exact this.tail
                    · intro b hb v hv
                      exact inv.hpend b (List.mem_cons_of_mem _ hb) v hv
                    · intro b hb v hv
                      exact inv.hdone b (List.mem_cons_of_mem _ hb) v hv
                    · intro pre b post hsplit v hv hvd
                      have := inv.hshadow (([], nx) :: pre) b post
                        (by rw [hsplit]; rfl) v hv hvd
                      simp only [List.map_cons, List.mem_cons] at this ⊢
                      rcases this with h | h | h
                      · exact Or.inl (Finset.mem_insert_of_mem h)
                      · exact Or.inl (h ▸ Finset.mem_insert_self _ _)
                      · exact Or.inr h
                    · cases bs with
                      | nil => exact Or.inl ⟨rfl, Or.inl rfl⟩
                      | cons b bs' => exact Or.inr ⟨List.cons_ne_nil _ _, rfl⟩
                    · intro b hb
                      exact inv.hself b (List.mem_cons_of_mem _ hb)
                    · exact Finset.insert_subset_iff.mpr ⟨hd, inv.hfin⟩
                  have finv' : FinInv g (insert nx fin) (nx :: fstack) := by
                    refine ⟨?_, ?_, ?_⟩
                    · refine List.nodup_cons.mpr ⟨?_, finv.hnodup⟩
                      intro hmem
                      exact hf ((finv.hmem nx).mp hmem)
                    · intro v
                      simp [List.mem_cons, Finset.mem_insert, finv.hmem v]
                    · intro pre v post hsplit w hw
                      cases pre with
                      | nil =>
                          simp only [List.nil_append] at hsplit
                          obtain ⟨rfl, rfl⟩ := List.cons.inj hsplit
                          exact (finv.hmem w).mpr (hallm w hw)
                      | cons p pre' =>
                          simp only [List.cons_append] at hsplit
                          obtain ⟨rfl, hrest'⟩ := List.cons.inj hsplit
                          exact finv.horder pre' v post hrest' w hw
                  have wf' : WfSt g rest disc :=
                    ⟨fun v hv => wf.hstack v (List.mem_cons_of_mem _ hv), wf.hdisc⟩
                  have hm' : tsMeasure g rest disc < fuel := by
                    simp only [tsMeasure, List.length_cons] at hm ⊢; omega
                  have heq : tsInner g (fuel + 1) (nx :: rest) disc fin fstack =
                      tsInner g fuel rest disc (insert nx fin) (nx :: fstack) := by
                    simp only [tsInner, if_pos hd, if_neg hf, if_pos hall]
                  rcases ih rest disc (insert nx fin) (nx :: fstack) bs [] inv' finv' wf' hm' with
                    ⟨d', f', fs', hout, hdf, hsub, hstk, finv2, hlt⟩ | ⟨e, l, hout, hcyc⟩
                  · left
                    refine ⟨d', f', fs', heq ▸ hout, hdf, hsub, ?_, finv2, hlt⟩
                    intro v hv
                    rcases List.mem_cons.mp hv with rfl | hv'
                    · exact hsub hd
                    · exact hstk v hv'
                  · right
                    exact ⟨e, l, heq ▸ hout, hcyc⟩
                case _ =>
                  -- a pending duplicate of an unfinished discovered node is
                  -- impossible: it would be grey with its open entry above
                  have := inv.hshadow [] (nx :: c', gv) bs rfl nx
                    (List.mem_cons_self _ _) hd
                  simp only [List.map_nil, List.not_mem_nil, or_false] at this
                  exact absurd this hf
              · -- finish error: a successor is discovered but unfinished,
                -- hence grey, hence on the grey chain: a cycle through nx
                obtain ⟨c, gv, bs, hbl, hc0e, hcase⟩ := head_block_of_disc inv rfl hd
                subst hbl
                subst hc0e
                rcases hcase with ⟨rfl, hnxgv, hrest⟩ | ⟨c', rfl, hrest⟩
                case _ =>
                  subst hnxgv
                  have hex : ∃ s ∈ g.neighbors nx, s ∉ fin := by
                    simpa using hall
                  obtain ⟨succ, hsmem, hsfin⟩ := hex
                  have hsdisc : succ ∈ disc := by
                    rcases inv.hdone ([], nx) (List.mem_cons_self _ _) succ hsmem with h | h
                    · exact h
                    · exact absurd h (List.not_mem_nil _)
                  have hsgrey := (inv.hgrey succ).mp ⟨hsdisc, hsfin⟩
                  simp only [List.map_cons] at hsgrey
                  have hsne : succ ≠ nx := by
                    rintro rfl
                    exact inv.hself ([], succ) (List.mem_cons_self _ _) hsmem
                  have hsmem' : succ ∈ bs.map (·.2) := by
                    rcases List.mem_cons.mp hsgrey with h | h
                    · exact absurd h hsne
                    · exact h
                  have hch : List.Chain' (fun a b => (b, a) ∈ g.edges)
                      (nx :: bs.map (·.2)) := by
                    have := inv.hchain
                    simpa using this
                  obtain ⟨pl, hpl⟩ :=
                    chain_path_to_head g (bs.map (·.2)) nx hch succ hsmem'
                  right
                  refine ⟨nx, succ :: pl, ?_, ?_⟩
                  · simp only [tsInner, if_pos hd, if_neg hf, if_neg hall]
                  · exact List.Chain.cons (mem_neighbors.mp hsmem) hpl
                case _ =>
                  have := inv.hshadow [] (nx :: c', gv) bs rfl nx
                    (List.mem_cons_self _ _) hd
                  simp only [List.map_nil, List.not_mem_nil, or_false] at this
                  exact absurd this hf
          · by_cases hsl : nx ∈ g.neighbors nx
            · -- self-loop error at discovery time
              right
              refine ⟨nx, [], ?_, ?_⟩
              · simp only [tsInner, if_neg hd, if_pos hsl]
              · exact List.Chain.cons (mem_neighbors.mp hsl) List.Chain.nil
            · -- discover: mark nx, push its undiscovered successors
              have hnfin : nx ∉ fin := fun h => hd (inv.hfin h)
              have hnxlt : nx < g.n := wf.hstack nx (List.mem_cons_self _ _)
              have hplen :
                  ((g.neighbors nx).filter
                    (fun s => decide (s ∉ insert nx disc))).length ≤
                    g.edges.length :=
                le_trans (List.length_filter_le _ _) (neighbors_length_le g nx)
              have hpendN : ∀ v ∈ ((g.neighbors nx).filter
                  (fun s => decide (s ∉ insert nx disc))).reverse,
                  v ∈ g.neighbors nx := by
                intro v hv
                rw [List.mem_reverse] at hv
                exact (List.mem_filter.mp hv).1
              have hfreshN : ∀ v ∈ ((g.neighbors nx).filter
                  (fun s => decide (s ∉ insert nx disc))).reverse,
                  v ∉ insert nx disc := by
                intro v hv
                rw [List.mem_reverse] at hv
                have := (List.mem_filter.mp hv).2
                simpa using this
              have hdoneN : ∀ v ∈ g.neighbors nx, v ∈ insert nx disc ∨
                  v ∈ ((g.neighbors nx).filter
                    (fun s => decide (s ∉ insert nx disc))).reverse := by
                intro v hv
                by_cases hvd : v ∈ insert nx disc
                · exact Or.inl hvd
                · refine Or.inr ?_
                  rw [List.mem_reverse, List.mem_filter]
                  exact ⟨hv, by simpa using hvd⟩
              have hwfN : ∀ v ∈ ((g.neighbors nx).filter
                  (fun s => decide (s ∉ insert nx disc))).reverse, v < g.n := by
                intro v hv
                exact (hgwf (nx, v) (mem_neighbors.mp (hpendN v hv))).2
              have heq : tsInner g (fuel + 1) (nx :: rest) disc fin fstack =
                  tsInner g fuel
                    (((g.neighbors nx).filter
                      (fun s => s ∉ insert nx disc)).reverse ++ nx :: rest)
                    (insert nx disc) fin fstack := by
                simp only [tsInner, if_neg hd, if_neg hsl]
              cases blocks with
              | nil =>
                  -- outer-loop root: c0 = [nx], rest = []
                  have hc0e : c0 = [nx] ∧ rest = [] := by
                    rcases inv.hc0 with ⟨-, hc⟩ | ⟨hne, -⟩
                    · rcases hc with rfl | ⟨r, rfl, hr⟩
                      · have h0 := inv.hstack
                        rw [stackOf_nil] at h0
                        exact absurd h0 (List.cons_ne_nil _ _)
                      · have h0 := inv.hstack
                        rw [stackOf_nil] at h0
                        obtain ⟨rfl, h2⟩ := List.cons.inj h0
                        exact ⟨rfl, h2⟩
                    · exact absurd rfl hne
                  obtain ⟨rfl, rfl⟩ := hc0e
                  have inv' : TsBInv g
                      (((g.neighbors nx).filter
                        (fun s => decide (s ∉ insert nx disc))).reverse ++ nx :: [])
                      (insert nx disc) fin
                      [(((g.neighbors nx).filter
                        (fun s => decide (s ∉ insert nx disc))).reverse, nx)] [] := by
                    refine ⟨?_, ?_, ?_, ?_, ?_, ?_, ?_, ?_, ?_, ?_⟩
                    · rw [stackOf_cons, stackOf_nil]
                    · intro v
                      by_cases hv : v = nx
                      · subst hv
                        simp [Finset.mem_insert_self, hnfin]
                      · have hold := inv.hgrey v
                        simp only [List.map_nil, List.not_mem_nil, iff_false,
                          not_and, not_not] at hold
                        simp only [List.map_cons, List.map_nil, List.mem_cons,
                          List.not_mem_nil, or_false, Finset.mem_insert]
                        constructor
                        · rintro ⟨h1 | h1, h2⟩
                          · exact absurd h1 hv
                          · exact absurd (hold h1) h2
                        · intro h
                          exact absurd h hv
                    · simp
                    · simp
                    · intro b hb v hv
                      rcases List.mem_cons.mp hb with rfl | hb'
                      · exact hpendN v hv
                      · exact absurd hb' (List.not_mem_nil _)
                    · intro b hb v hv
                      rcases List.mem_cons.mp hb with rfl | hb'
                      · exact hdoneN v hv
                      · exact absurd hb' (List.not_mem_nil _)
                    · intro pre b post hsplit v hv hvd
                      cases pre with
                      | nil =>
                          simp only [List.nil_append] at hsplit
                          obtain ⟨rfl, -⟩ := List.cons.inj hsplit
                          exact absurd hvd (hfreshN v hv)
                      | cons p pre' =>
                          simp only [List.cons_append] at hsplit
                          obtain ⟨-, habs⟩ := List.cons.inj hsplit
                          exact absurd habs.symm (List.append_ne_nil_of_right_ne_nil _
                            (List.cons_ne_nil _ _))
                    · exact Or.inr ⟨List.cons_ne_nil _ _, rfl⟩
                    · intro b hb
                      rcases List.mem_cons.mp hb with rfl | hb'
                      · exact hsl
                      · exact absurd hb' (List.not_mem_nil _)
                    · exact Finset.Subset.trans inv.hfin (Finset.subset_insert _ _)
                  have wf' : WfSt g
                      (((g.neighbors nx).filter
                        (fun s => decide (s ∉ insert nx disc))).reverse ++ nx :: [])
                      (insert nx disc) := by
                    refine ⟨?_, ?_⟩
                    · intro v hv
                      rcases List.mem_append.mp hv with h | h
                      · exact hwfN v h
                      · rcases List.mem_cons.mp h with rfl | h'
                        · exact hnxlt
                        · exact absurd h' (List.not_mem_nil _)
                    · intro v hv
                      rcases Finset.mem_insert.mp hv with rfl | h
                      · exact hnxlt
                      · exact wf.hdisc v h
                  have hm' : tsMeasure g
                      (((g.neighbors nx).filter
                        (fun s => decide (s ∉ insert nx disc))).reverse ++ nx :: [])
                      (insert nx disc) < fuel := by
                    have := tsMeasure_discover g
                      (((g.neighbors nx).filter
                        (fun s => decide (s ∉ insert nx disc))).reverse) []
                      disc nx (by simpa using hplen) hnxlt hd wf.hdisc
                    omega
                  rcases ih _ (insert nx disc) fin fstack _ [] inv' finv wf' hm' with
                    ⟨d', f', fs', hout, hdf, hsub, hstk, finv', hlt⟩ | ⟨e, l, hout, hcyc⟩
                  · left
                    refine ⟨d', f', fs', heq ▸ hout, hdf,
                      Finset.Subset.trans (Finset.subset_insert _ _) hsub, ?_, finv', hlt⟩
                    intro v hv
                    rcases List.mem_cons.mp hv with rfl | hv'
                    · exact hsub (Finset.mem_insert_self _ _)
                    · exact absurd hv' (List.not_mem_nil _)
                  · right
                    exact ⟨e, l, heq ▸ hout, hcyc⟩
              | cons blk bs =>
                  obtain ⟨c, gv⟩ := blk
                  have hc0e : c0 = [] := by
                    rcases inv.hc0 with ⟨h, -⟩ | ⟨-, h⟩
                    · exact absurd h (List.cons_ne_nil _ _)
                    · exact h
                  subst hc0e
                  have hst := inv.hstack
                  rw [stackOf_cons] at hst
                  cases c with
                  | nil =>
                      simp only [List.nil_append] at hst
                      obtain ⟨rfl, -⟩ := List.cons.inj hst
                      have := (inv.hgrey nx).mpr (by simp)
                      exact absurd this.1 hd
                  | cons x c' =>
                      simp only [List.cons_append] at hst
                      obtain ⟨hx, hrest⟩ := List.cons.inj hst
                      subst hx
                      have hnxnbr : nx ∈ g.neighbors gv :=
                        inv.hpend (nx :: c', gv) (List.mem_cons_self _ _) nx
                          (List.mem_cons_self _ _)
                      have hgreyold : ∀ v ∈ ((nx :: c', gv) :: bs).map (·.2),
                          v ∈ disc := by
                        intro v hv
                        exact ((inv.hgrey v).mpr hv).1
                      have inv' : TsBInv g
                          (((g.neighbors nx).filter
                            (fun s => decide (s ∉ insert nx disc))).reverse ++ nx :: rest)
                          (insert nx disc) fin
                          ((((g.neighbors nx).filter
                            (fun s => decide (s ∉ insert nx disc))).reverse, nx) ::
                            (c', gv) :: bs) [] := by
                        refine ⟨?_, ?_, ?_, ?_, ?_, ?_, ?_, ?_, ?_, ?_⟩
                        · rw [stackOf_cons, stackOf_cons, hrest]
                        · intro v
                          by_cases hv : v = nx
                          · subst hv
                            simp [Finset.mem_insert_self, hnfin]
                          · have hold := inv.hgrey v
                            simp only [List.map_cons, List.mem_cons] at hold ⊢
                            simp only [Finset.mem_insert]
                            constructor
                            · rintro ⟨h1 | h1, h2⟩
                              · exact absurd h1 hv
                              · exact Or.inr (hold.mp ⟨h1, h2⟩)
                            · rintro (h | h)
                              · exact absurd h hv
                              · have := hold.mpr h
                                exact ⟨Or.inr this.1, this.2⟩
                        · have hnmem : nx ∉ ((nx :: c', gv) :: bs).map (·.2) :=
                            fun h => hd (hgreyold nx h)
                          simp only [List.map_cons] at hnmem ⊢
                          simp only [List.nodup_cons]
                          refine ⟨by simpa using hnmem, ?_⟩
                          have := inv.hnodup
                          simpa using this
                        · have hold := inv.hchain
                          simp only [List.map_cons] at hold ⊢
                          rw [List.chain'_cons]
                          exact ⟨mem_neighbors.mp hnxnbr, hold⟩
                        · intro b hb v hv
                          rcases List.mem_cons.mp hb with rfl | hb'
                          · exact hpendN v hv
                          · rcases List.mem_cons.mp hb' with rfl | hb''
                            · exact inv.hpend (nx :: c', gv) (List.mem_cons_self _ _)
                                v (List.mem_cons_of_mem _ hv)
                            · exact inv.hpend b (List.mem_cons_of_mem _ hb'') v hv
                        · intro b hb v hv
                          rcases List.mem_cons.mp hb with rfl | hb'
                          · exact hdoneN v hv
                          · rcases List.mem_cons.mp hb' with rfl | hb''
                            · rcases inv.hdone (nx :: c', gv) (List.mem_cons_self _ _)
                                v hv with h | h
                              · exact Or.inl (Finset.mem_insert_of_mem h)
                              · rcases List.mem_cons.mp h with rfl | h'
                                · exact Or.inl (Finset.mem_insert_self _ _)
                                · exact Or.inr h'
                            · rcases inv.hdone b (List.mem_cons_of_mem _ hb'') v hv with
                                h | h
                              · exact Or.inl (Finset.mem_insert_of_mem h)
                              · exact Or.inr h
                        · intro pre b post hsplit v hv hvd
                          cases pre with
                          | nil =>
                              simp only [List.nil_append] at hsplit
                              obtain ⟨rfl, -⟩ := List.cons.inj hsplit
                              exact absurd hvd (hfreshN v hv)
                          | cons p pre' =>
                              simp only [List.cons_append] at hsplit
                              obtain ⟨rfl, hsplit'⟩ := List.cons.inj hsplit
                              cases pre' with
                              | nil =>
                                  simp only [List.nil_append] at hsplit'
                                  obtain ⟨rfl, rfl⟩ := List.cons.inj hsplit'
                                  rcases Finset.mem_insert.mp hvd with rfl | hvdisc
                                  · simp
                                  · have := inv.hshadow [] (nx :: c', gv) bs rfl v
                                      (List.mem_cons_of_mem _ hv) hvdisc
                                    simp only [List.map_nil, List.not_mem_nil,
                                      or_false] at this
                                    exact Or.inl this
                              | cons q pre'' =>
                                  simp only [List.cons_append] at hsplit'
                                  obtain ⟨rfl, hsplit''⟩ := List.cons.inj hsplit'
                                  rcases Finset.mem_insert.mp hvd with rfl | hvdisc
                                  · simp
                                  · have := inv.hshadow ((nx :: c', gv) :: pre'') b post
                                      (by rw [hsplit'']; rfl) v hv hvdisc
                                    simp only [List.map_cons, List.mem_cons] at this ⊢
                                    rcases this with h | h | h
                                    · exact Or.inl h
                                    · exact Or.inr (Or.inr (Or.inl h))
                                    · exact Or.inr (Or.inr (Or.inr h))
                        · exact Or.inr ⟨List.cons_ne_nil _ _, rfl⟩
                        · intro b hb
                          rcases List.mem_cons.mp hb with rfl | hb'
                          · exact hsl
                          · rcases List.mem_cons.mp hb' with rfl | hb''
                            · exact inv.hself (nx :: c', gv) (List.mem_cons_self _ _)
                            · exact inv.hself b (List.mem_cons_of_mem _ hb'')
                        · exact Finset.Subset.trans inv.hfin (Finset.subset_insert _ _)
                      have wf' : WfSt g
                          (((g.neighbors nx).filter
                            (fun s => decide (s ∉ insert nx disc))).reverse ++ nx :: rest)
                          (insert nx disc) := by
                        refine ⟨?_, ?_⟩
                        · intro v hv
                          rcases List.mem_append.mp hv with h | h
                          · exact hwfN v h
                          · exact wf.hstack v h
                        · intro v hv
                          rcases Finset.mem_insert.mp hv with rfl | h
                          · exact hnxlt
                          · exact wf.hdisc v h
                      have hm' : tsMeasure g
                          (((g.neighbors nx).filter
                            (fun s => decide (s ∉ insert nx disc))).reverse ++ nx :: rest)
                          (insert nx disc) < fuel := by
                        have := tsMeasure_discover g
                          (((g.neighbors nx).filter
                            (fun s => decide (s ∉ insert nx disc))).reverse) rest
                          disc nx (by simpa using hplen) hnxlt hd wf.hdisc
                        omega
                      rcases ih _ (insert nx disc) fin fstack _ [] inv' finv wf' hm' with
                        ⟨d', f', fs', hout, hdf, hsub, hstk, finv', hlt⟩ |
                        ⟨e, l, hout, hcyc⟩
                      · left
                        refine ⟨d', f', fs', heq ▸ hout, hdf,
                          Finset.Subset.trans (Finset.subset_insert _ _) hsub, ?_,
                          finv', hlt⟩
                        intro v hv
                        rcases List.mem_cons.mp hv with rfl | hv'
                        · exact hsub (Finset.mem_insert_self _ _)
                        · exact hstk v (List.mem_append.mpr
                            (Or.inr (List.mem_cons_of_mem _ hv')))
                      · right
                        exact ⟨e, l, heq ▸ hout, hcyc⟩

end Conflow
namespace Conflow

theorem tsOuterGo_spec (g : DagBuilder) (hgwf : g.WF) :
    ∀ ids disc fin fstack,
    disc = fin → FinInv g fin fstack → (∀ v ∈ disc, v < g.n) →
    (∀ i ∈ ids, i < g.n) →
    (∃ fin' fstack', tsOuterGo g ids disc fin fstack = .ok fstack' ∧
        FinInv g fin' fstack' ∧ (∀ i ∈ ids, i ∈ fin') ∧ fin ⊆ fin' ∧
        (∀ v ∈ fin', v < g.n)) ∨
    (∃ e l, tsOuterGo g ids disc fin fstack = .error (.cycleAt e) ∧
        IsCycleFrom g e l) := by
  intro ids
  induction ids with
  | nil =>
      intro disc fin fstack hdf finv hd _
      left
      exact ⟨fin, fstack, rfl, finv, by simp, Finset.Subset.refl _,
        fun v hv => hd v (hdf ▸ hv)⟩
  | cons i is ih =>
      intro disc fin fstack hdf finv hd hids
      by_cases hdi : i ∈ disc
      · have heq : tsOuterGo g (i :: is) disc fin fstack =
            tsOuterGo g is disc fin fstack := by
          simp only [tsOuterGo, if_pos hdi]
        rcases ih disc fin fstack hdf finv hd
          (fun j hj => hids j (List.mem_cons_of_mem _ hj)) with
          ⟨fin', fstack', hout, finv', hcov, hsub, hlt⟩ | ⟨e, l, hout, hcyc⟩
        · left
          refine ⟨fin', fstack', heq ▸ hout, finv', ?_, hsub, hlt⟩
          intro j hj
          rcases List.mem_cons.mp hj with rfl | hj'
          · exact hsub (hdf ▸ hdi)
          · exact hcov j hj'
        · right
          exact ⟨e, l, heq ▸ hout, hcyc⟩
      · have inv0 : TsBInv g [i] disc fin [] [i] := by
          refine ⟨?_, ?_, ?_, ?_, ?_, ?_, ?_, ?_, ?_, ?_⟩
          · rw [stackOf_nil]
          · intro v
            simp only [List.map_nil, List.not_mem_nil, iff_false, not_and, not_not]
            intro hv
            exact hdf ▸ hv
          · simp
          · simp
          · intro b hb; exact absurd hb (List.not_mem_nil _)
          · intro b hb; exact absurd hb (List.not_mem_nil _)
          · intro pre b post hsplit
            exact absurd hsplit (by simp)
          · exact Or.inl ⟨rfl, Or.inr ⟨i, rfl, hdi⟩⟩
          · intro b hb; exact absurd hb (List.not_mem_nil _)
          · exact hdf ▸ Finset.Subset.refl _
        have wf0 : WfSt g [i] disc := by
          refine ⟨?_, hd⟩
          intro v hv
          rcases List.mem_cons.mp hv with rfl | hv'
          · exact hids _ (List.mem_cons_self _ _)
          · exact absurd hv' (List.not_mem_nil _)
        have hm0 : tsMeasure g [i] disc < innerFuel g := by
          simp only [tsMeasure, innerFuel, List.length_cons, List.length_nil]
          have h1 : g.n - disc.card ≤ g.n := Nat.sub_le _ _
          have h2 : (g.n - disc.card) * (g.edges.length + 2) ≤
              g.n * (g.edges.length + 2) :=
            Nat.mul_le_mul_right _ h1
          omega
        rcases tsInner_spec g hgwf (innerFuel g) [i] disc fin fstack [] [i]
          inv0 finv wf0 hm0 with
          ⟨d', f', fs', hout, hdf', hsub, hstk, finv', hlt⟩ | ⟨e, l, hout, hcyc⟩
        · have heq : tsOuterGo g (i :: is) disc fin fstack =
              tsOuterGo g is d' f' fs' := by
            simp only [tsOuterGo, if_neg hdi, hout]
          rcases ih d' f' fs' hdf' finv' (hdf' ▸ hlt)
            (fun j hj => hids j (List.mem_cons_of_mem _ hj)) with
            ⟨fin'', fstack'', hout', finv'', hcov, hsub', hlt'⟩ |
            ⟨e, l, hout', hcyc⟩
          · left
            refine ⟨fin'', fstack'', heq ▸ hout', finv'', ?_, ?_, hlt'⟩
            · intro j hj
              rcases List.mem_cons.mp hj with rfl | hj'
              · exact hsub' (hdf' ▸ hstk j (List.mem_cons_self _ _))
              · exact hcov j hj'
            · exact Finset.Subset.trans (hdf ▸ Finset.Subset.trans hsub
                (hdf' ▸ Finset.Subset.refl _)) hsub'
          · right
            exact ⟨e, l, heq ▸ hout', hcyc⟩
        · right
          refine ⟨e, l, ?_, hcyc⟩
          simp only [tsOuterGo, if_neg hdi, hout]

theorem toposortG_spec (g : DagBuilder) (hgwf : g.WF) :
    (∃ l, toposortG g = .ok l ∧ l.Nodup ∧ (∀ v, v ∈ l ↔ v < g.n) ∧
        ∀ pre v post, l = pre ++ v :: post → ∀ w ∈ g.neighbors v, w ∈ post) ∨
    (∃ e l, toposortG g = .error (.cycleAt e) ∧ IsCycleFrom g e l) := by
  have finv0 : FinInv g (∅ : Finset Nat) [] := by
    refine ⟨List.nodup_nil, ?_, ?_⟩
    · intro v; simp
    · intro pre v post hsplit
      exact absurd hsplit (by simp)
  rcases tsOuterGo_spec g hgwf (List.range g.n) ∅ ∅ [] rfl finv0
    (by intro v hv; exact absurd hv (Finset.not_mem_empty v))
    (by intro i hi; exact List.mem_range.mp hi) with
    ⟨fin', fstack', hout, finv', hcov, -, hlt⟩ | ⟨e, l, hout, hcyc⟩
  · left
    refine ⟨fstack', hout, finv'.hnodup, ?_, finv'.horder⟩
    intro v
    constructor
    · intro hv
      exact hlt v ((finv'.hmem v).mp hv)
    · intro hv
      exact (finv'.hmem v).mpr (hcov v (List.mem_range.mpr hv))
  · right
    exact ⟨e, l, hout, hcyc⟩

end Conflow
namespace Conflow

/-! ### Facts about `lookupName` and `buildEdges` -/

theorem findIdx?_some_bounds {alpha : Type} {p : alpha → Bool} :
    ∀ (l : List alpha) (i j : Nat), List.findIdx? p l i = some j →
      i ≤ j ∧ j < i + l.length := by
  intro l
  induction l with
  | nil => intro i j h; simp [List.findIdx?] at h
  | cons a l ih =>
      intro i j h
      rw [List.findIdx?] at h
      by_cases hp : p a = true
      · simp only [hp, if_pos rfl] at h
        obtain rfl := Option.some.inj h
        simp
      · simp only [hp] at h
        simp only [if_neg (by simp : ¬ (false = true))] at h
        have := ih (i + 1) j h
        simp only [List.length_cons]
        omega

theorem findIdx?_isSome_of_mem {alpha : Type} {p : alpha → Bool} :
    ∀ (l : List alpha) (i : Nat) (x : alpha), x ∈ l → p x = true →
      (List.findIdx? p l i).isSome := by
  intro l
  induction l with
  | nil => intro i x hx; exact absurd hx (List.not_mem_nil _)
  | cons a l ih =>
      intro i x hx hp
      rw [List.findIdx?]
      by_cases ha : p a = true
      · simp only [ha, if_pos rfl]; rfl
      · simp only [ha]
        simp only [if_neg (by simp : ¬ (false = true))]
        rcases List.mem_cons.mp hx with rfl | hx'
        · exact absurd hp ha
        · exact ih (i + 1) x hx' hp

theorem lookupName_lt {names : List String} {s : String} {i : Nat}
    (h : lookupName names s = some i) : i < names.length := by
  unfold lookupName at h
  rcases hf : names.reverse.findIdx? (fun x => x == s) with - | j
  · rw [hf] at h; exact absurd h (by simp)
  · rw [hf] at h
    obtain rfl := Option.some.inj h
    have := findIdx?_some_bounds names.reverse 0 j hf
    rw [List.length_reverse] at this
    omega

theorem lookupName_isSome {names : List String} {s : String}
    (h : s ∈ names) : (lookupName names s).isSome := by
  unfold lookupName
  have := findIdx?_isSome_of_mem (p := fun x => x == s) names.reverse 0 s
    (List.mem_reverse.mpr h) (beq_self_eq_true s)
  rcases hf : names.reverse.findIdx? (fun x => x == s) with - | j
  · rw [hf] at this; exact absurd this (by simp)
  · rfl

end Conflow
namespace Conflow

theorem depFold_props (names : List String) (nm : String) (sn : Nat) :
    ∀ (deps : List String) (edges es' : List (Nat × Nat)),
    (deps.foldlM (fun es dep =>
      match lookupName names dep with
      | some d => Except.ok (es ++ [(d, sn)])
      | none => Except.error (ConflowError.unknownDependency nm dep)) edges)
      = .ok es' →
    (∀ e ∈ edges, e ∈ es') ∧
    (∀ dep ∈ deps, ∀ i, lookupName names dep = some i → (i, sn) ∈ es') ∧
    (∀ e ∈ es', e ∈ edges ∨
      (e.2 = sn ∧ ∃ dep ∈ deps, lookupName names dep = some e.1)) := by
  intro deps
  induction deps with
  | nil =>
      intro edges es' h
      rw [List.foldlM_nil] at h
      obtain rfl := Except.ok.inj h
      exact ⟨fun e he => he, fun dep hdep => absurd hdep (List.not_mem_nil _),
        fun e he => Or.inl he⟩
  | cons dep deps ih =>
      intro edges es' h
      rw [List.foldlM_cons] at h
      rcases hl : lookupName names dep with - | d
      · rw [hl] at h
        exact Except.noConfusion h
      · rw [hl] at h
        have h' : (deps.foldlM (fun es dep =>
            match lookupName names dep with
            | some d => Except.ok (es ++ [(d, sn)])
            | none => Except.error (ConflowError.unknownDependency nm dep))
            (edges ++ [(d, sn)])) = .ok es' := h
        obtain ⟨hmono, hpres, hsrc⟩ := ih (edges ++ [(d, sn)]) es' h'
        refine ⟨?_, ?_, ?_⟩
        · intro e he
          exact hmono e (List.mem_append.mpr (Or.inl he))
        · intro dep' hdep' i hi
          rcases List.mem_cons.mp hdep' with rfl | hdep''
          · rw [hl] at hi
            obtain rfl := Option.some.inj hi
            exact hmono _ (List.mem_append.mpr (Or.inr (by simp)))
          · exact hpres dep' hdep'' i hi
        · intro e he
          rcases hsrc e he with hin | ⟨h2, dep', hdep', hld⟩
          · rcases List.mem_append.mp hin with h1 | h1
            · exact Or.inl h1
            · simp only [List.mem_singleton] at h1
              subst h1
              exact Or.inr ⟨rfl, dep, List.mem_cons_self _ _, hl⟩
          · exact Or.inr ⟨h2, dep', List.mem_cons_of_mem _ hdep', hld⟩

theorem addStageEdges_props (names : List String) (stage : Stage)
    (edges es' : List (Nat × Nat))
    (h : addStageEdges names edges stage = .ok es') :
    (∀ e ∈ edges, e ∈ es') ∧
    (∀ dep ∈ stage.depends_on, ∀ i, lookupName names dep = some i →
      (i, (lookupName names stage.name).getD 0) ∈ es') ∧
    (∀ r, stage.input.references_stage = some r → ∀ i,
      lookupName names r = some i →
      (i, (lookupName names stage.name).getD 0) ∈ es') ∧
    (∀ e ∈ es', e ∈ edges ∨
      (e.2 = (lookupName names stage.name).getD 0 ∧
        ∃ dep, lookupName names dep = some e.1)) := by
  unfold addStageEdges at h
  replace h : ((stage.depends_on.foldlM (fun es dep =>
      match lookupName names dep with
      | some d => Except.ok (es ++ [(d, (lookupName names stage.name).getD 0)])
      | none => Except.error (ConflowError.unknownDependency stage.name dep))
      edges) >>= fun edges1 =>
      match stage.input.references_stage with
      | some r =>
          match lookupName names r with
          | some d =>
              if (d, (lookupName names stage.name).getD 0) ∈ edges1 then
                Except.ok edges1
              else
                Except.ok (edges1 ++ [(d, (lookupName names stage.name).getD 0)])
          | none => Except.error (ConflowError.unknownDependency stage.name r)
      | none => Except.ok edges1) = Except.ok es' := h
  rcases hdf : (stage.depends_on.foldlM (fun es dep =>
      match lookupName names dep with
      | some d => Except.ok (es ++ [(d, (lookupName names stage.name).getD 0)])
      | none => Except.error (ConflowError.unknownDependency stage.name dep))
      edges) with e1 | edges1
  · rw [hdf] at h
    exact Except.noConfusion h
  · rw [hdf] at h
    obtain ⟨hmono, hpres, hsrc⟩ :=
      depFold_props names stage.name ((lookupName names stage.name).getD 0)
        stage.depends_on edges edges1 hdf
    replace h : (match stage.input.references_stage with
      | some r =>
          (match lookupName names r with
           | some d =>
              if (d, (lookupName names stage.name).getD 0) ∈ edges1 then
                Except.ok edges1
              else Except.ok (edges1 ++ [(d, (lookupName names stage.name).getD 0)])
           | none => Except.error (ConflowError.unknownDependency stage.name r))
      | none => Except.ok edges1) = Except.ok es' := h
    rcases href : stage.input.references_stage with - | r
    · rw [href] at h
      obtain rfl := Except.ok.inj h
      refine ⟨hmono, hpres, ?_, ?_⟩
      · intro r hr
        exact Option.noConfusion hr
      · intro e he
        rcases hsrc e he with h1 | ⟨h2, dep, -, hld⟩
        · exact Or.inl h1
        · exact Or.inr ⟨h2, dep, hld⟩
    · rw [href] at h
      replace h : (match lookupName names r with
          | some d =>
              if (d, (lookupName names stage.name).getD 0) ∈ edges1 then
                Except.ok edges1
              else
                Except.ok (edges1 ++ [(d, (lookupName names stage.name).getD 0)])
          | none => Except.error (ConflowError.unknownDependency stage.name r)) =
          Except.ok es' := h
      rcases hlr : lookupName names r with - | d
      · rw [hlr] at h
        exact Except.noConfusion h
      · rw [hlr] at h
        replace h : (if (d, (lookupName names stage.name).getD 0) ∈ edges1 then
              Except.ok edges1
            else
              Except.ok (edges1 ++ [(d, (lookupName names stage.name).getD 0)])) =
            Except.ok es' := h
        by_cases hmem : (d, (lookupName names stage.name).getD 0) ∈ edges1
        · rw [if_pos hmem] at h
          obtain rfl := Except.ok.inj h
          refine ⟨hmono, hpres, ?_, ?_⟩
          · intro r' hr' i hi
            obtain rfl := Option.some.inj hr'
            rw [hlr] at hi
            obtain rfl := Option.some.inj hi
            exact hmem
          · intro e he
            rcases hsrc e he with h1 | ⟨h2, dep, -, hld⟩
            · exact Or.inl h1
            · exact Or.inr ⟨h2, dep, hld⟩
        · rw [if_neg hmem] at h
          obtain rfl := Except.ok.inj h
          refine ⟨?_, ?_, ?_, ?_⟩
          · intro e he
            exact List.mem_append.mpr (Or.inl (hmono e he))
          · intro dep hdep i hi
            exact List.mem_append.mpr (Or.inl (hpres dep hdep i hi))
          · intro r' hr' i hi
            obtain rfl := Option.some.inj hr'
            rw [hlr] at hi
            obtain rfl := Option.some.inj hi
            exact List.mem_append.mpr (Or.inr (by simp))
          · intro e he
            rcases List.mem_append.mp he with h1 | h1
            · rcases hsrc e h1 with h2 | ⟨h3, dep, -, hld⟩
              · exact Or.inl h2
              · exact Or.inr ⟨h3, dep, hld⟩
            · simp only [List.mem_singleton] at h1
              subst h1
              exact Or.inr ⟨rfl, r, hlr⟩

end Conflow
namespace Conflow

theorem buildEdges_props (names : List String) :
    ∀ (stages : List Stage) (edges0 es : List (Nat × Nat)),
    stages.foldlM (addStageEdges names) edges0 = .ok es →
    (∀ e ∈ edges0, e ∈ es) ∧
    (∀ stage ∈ stages, ∀ dep ∈ stage.depends_on, ∀ i,
      lookupName names dep = some i →
      (i, (lookupName names stage.name).getD 0) ∈ es) ∧
    (∀ stage ∈ stages, ∀ r, stage.input.references_stage = some r → ∀ i,
      lookupName names r = some i →
      (i, (lookupName names stage.name).getD 0) ∈ es) ∧
    (∀ e ∈ es, e ∈ edges0 ∨ ∃ stage ∈ stages,
      e.2 = (lookupName names stage.name).getD 0 ∧
      ∃ dep, lookupName names dep = some e.1) := by
  intro stages
  induction stages with
  | nil =>
      intro edges0 es h
      rw [List.foldlM_nil] at h
      obtain rfl := Except.ok.inj h
      exact ⟨fun e he => he, fun s hs => absurd hs (List.not_mem_nil _),
        fun s hs => absurd hs (List.not_mem_nil _), fun e he => Or.inl he⟩
  | cons stage stages ih =>
      intro edges0 es h
      rw [List.foldlM_cons] at h
      rcases hs1 : addStageEdges names edges0 stage with e1 | es1
      · rw [hs1] at h
        exact Except.noConfusion h
      · rw [hs1] at h
        obtain ⟨hmono1, hdep1, href1, hsrc1⟩ :=
          addStageEdges_props names stage edges0 es1 hs1
        obtain ⟨hmono2, hdep2, href2, hsrc2⟩ := ih es1 es h
        refine ⟨?_, ?_, ?_, ?_⟩
        · intro e he
          exact hmono2 e (hmono1 e he)
        · intro s hsmem dep hdep i hi
          rcases List.mem_cons.mp hsmem with rfl | hsmem'
          · exact hmono2 _ (hdep1 dep hdep i hi)
          · exact hdep2 s hsmem' dep hdep i hi
        · intro s hsmem r hr i hi
          rcases List.mem_cons.mp hsmem with rfl | hsmem'
          · exact hmono2 _ (href1 r hr i hi)
          · exact href2 s hsmem' r hr i hi
        · intro e he
          rcases hsrc2 e he with h1 | ⟨s, hsmem, hprop⟩
          · rcases hsrc1 e h1 with h2 | ⟨h3, dep, hld⟩
            · exact Or.inl h2
            · exact Or.inr ⟨stage, List.mem_cons_self _ _, h3, dep, hld⟩
          · exact Or.inr ⟨s, List.mem_cons_of_mem _ hsmem, hprop⟩

/-- The graph `DagBuilder::build` assembles for a pipeline. -/
def builtGraph (p : Pipeline) (es : List (Nat × Nat)) : DagBuilder :=
  { n := p.stages.length, edges := es, names := p.stages.map (·.name) }

theorem buildEdges_wf {p : Pipeline} {es : List (Nat × Nat)}
    (h : buildEdges (p.stages.map (·.name)) p.stages = .ok es) :
    (builtGraph p es).WF := by
  intro e he
  rw [buildEdges] at h
  obtain ⟨-, -, -, hsrc⟩ :=
    buildEdges_props (p.stages.map (·.name)) p.stages [] es h
  rcases hsrc e he with h1 | ⟨stage, hstage, h2, dep, hld⟩
  · exact absurd h1 (List.not_mem_nil _)
  · constructor
    · have := lookupName_lt hld
      simpa [builtGraph] using this
    · have hmem : stage.name ∈ p.stages.map (·.name) :=
        List.mem_map.mpr ⟨stage, hstage, rfl⟩
      have hsome := lookupName_isSome hmem
      obtain ⟨k, hk⟩ := Option.isSome_iff_exists.mp hsome
      rw [h2, hk]
      have := lookupName_lt hk
      simpa [builtGraph] using this

end Conflow
namespace Conflow

theorem rank_lt_of_split :
    ∀ (pre post l : List Nat), l.Nodup → ∀ (u w : Nat),
    l = pre ++ u :: post → w ∈ post → l.indexOf u < l.indexOf w := by
  intro pre
  induction pre with
  | nil =>
      intro post l hnd u w hl hw
      subst hl
      simp only [List.nil_append] at *
      have hne : u ≠ w := by
        rintro rfl
        exact (List.nodup_cons.mp hnd).1 hw
      rw [List.indexOf_cons_self]
      rw [List.indexOf_cons_ne _ (by exact hne)]
      exact Nat.succ_pos _
  | cons a pre ih =>
      intro post l hnd u w hl hw
      subst hl
      simp only [List.cons_append] at *
      have hnd' := List.nodup_cons.mp hnd
      have hau : a ≠ u := by
        rintro rfl
        exact hnd'.1 (List.mem_append.mpr (Or.inr (List.mem_cons_self _ _)))
      have haw : a ≠ w := by
        rintro rfl
        exact hnd'.1 (List.mem_append.mpr (Or.inr (List.mem_cons_of_mem _ hw)))
      rw [List.indexOf_cons_ne _ hau, List.indexOf_cons_ne _ haw]
      exact Nat.succ_lt_succ (ih post _ hnd'.2 u w rfl hw)

theorem edge_rank (g : DagBuilder) (l : List Nat) (hnd : l.Nodup)
    (hcov : ∀ v, v ∈ l ↔ v < g.n) (hgwf : g.WF)
    (hord : ∀ pre v post, l = pre ++ v :: post → ∀ w ∈ g.neighbors v, w ∈ post)
    {u w : Nat} (he : (u, w) ∈ g.edges) : l.indexOf u < l.indexOf w := by
  have hu : u ∈ l := (hcov u).mpr (hgwf (u, w) he).1
  obtain ⟨pre, post, hl⟩ := List.append_of_mem hu
  have hw : w ∈ post := hord pre u post hl w (mem_neighbors.mpr he)
  exact rank_lt_of_split pre post l hnd u w hl hw

theorem chain_rank (g : DagBuilder) (l : List Nat) (hnd : l.Nodup)
    (hcov : ∀ v, v ∈ l ↔ v < g.n) (hgwf : g.WF)
    (hord : ∀ pre v post, l = pre ++ v :: post → ∀ w ∈ g.neighbors v, w ∈ post) :
    ∀ (t : List Nat) (a : Nat), List.Chain (fun u w => (u, w) ∈ g.edges) a t →
    ∀ b, t.getLast? = some b → l.indexOf a < l.indexOf b := by
  intro t
  induction t with
  | nil => intro a _ b hb; exact absurd hb (by simp)
  | cons c t' ih =>
      intro a hch b hb
      rcases hch with _ | ⟨hac, hch'⟩
      cases t' with
      | nil =>
          simp only [List.getLast?_singleton] at hb
          obtain rfl := Option.some.inj hb
          exact edge_rank g l hnd hcov hgwf hord hac
      | cons d t'' =>
          rw [List.getLast?_cons_cons] at hb
          exact Nat.lt_trans (edge_rank g l hnd hcov hgwf hord hac)
            (ih c hch' b hb)

theorem ok_no_cycle (g : DagBuilder) (l : List Nat) (hnd : l.Nodup)
    (hcov : ∀ v, v ∈ l ↔ v < g.n) (hgwf : g.WF)
    (hord : ∀ pre v post, l = pre ++ v :: post → ∀ w ∈ g.neighbors v, w ∈ post) :
    ∀ e cyc, ¬ IsCycleFrom g e cyc := by
  intro e cyc hcy
  unfold IsCycleFrom at hcy
  have hlast : (cyc ++ [e]).getLast? = some e := List.getLast?_concat _
  have := chain_rank g l hnd hcov hgwf hord (cyc ++ [e]) e hcy e hlast
  exact Nat.lt_irrefl _ this

end Conflow
namespace Conflow

theorem build_eq (p : Pipeline) :
    DagBuilder.build p =
      (buildEdges (p.stages.map (·.name)) p.stages) >>= fun es =>
        ((builtGraph p es).validate_acyclic) >>= fun _ => .ok (builtGraph p es) :=
  rfl

theorem validate_of_toposort_ok {g : DagBuilder} {l : List Nat}
    (h : toposortG g = .ok l) : g.validate_acyclic = .ok () := by
  unfold DagBuilder.validate_acyclic
  rw [h]

theorem validate_of_toposort_err {g : DagBuilder} {e : Nat}
    (h : toposortG g = .error (.cycleAt e)) :
    g.validate_acyclic = .error (.circularDependency (g.find_cycle_members e)) := by
  unfold DagBuilder.validate_acyclic
  rw [h]

theorem topological_order_of_toposort_ok {g : DagBuilder} {l : List Nat}
    (h : toposortG g = .ok l) : g.topological_order = .ok l := by
  unfold DagBuilder.topological_order
  rw [h]

theorem build_ok_elim {p : Pipeline} {b : DagBuilder}
    (h : DagBuilder.build p = .ok b) :
    ∃ es, buildEdges (p.stages.map (·.name)) p.stages = .ok es ∧
      b = builtGraph p es ∧ ∃ l, toposortG b = .ok l := by
  rw [build_eq] at h
  rcases hE : buildEdges (p.stages.map (·.name)) p.stages with e1 | es
  · rw [hE] at h
    exact Except.noConfusion h
  · rw [hE] at h
    replace h : (((builtGraph p es).validate_acyclic) >>= fun _ =>
        Except.ok (builtGraph p es)) = Except.ok b := h
    rcases hT : toposortG (builtGraph p es) with e2 | l
    · cases e2 with
      | cycleAt e =>
          rw [validate_of_toposort_err hT] at h
          exact Except.noConfusion h
      | fuelOut =>
          have hv : (builtGraph p es).validate_acyclic =
              .error (.circularDependency []) := by
            unfold DagBuilder.validate_acyclic
            rw [hT]
          rw [hv] at h
          exact Except.noConfusion h
    · rw [validate_of_toposort_ok hT] at h
      replace h : Except.ok (ε := ConflowError) (builtGraph p es) = Except.ok b := h
      obtain rfl := (Except.ok.inj h).symm
      exact ⟨es, hE, rfl, l, hT⟩

theorem build_err_of_cycle {p : Pipeline} {es : List (Nat × Nat)}
    (hE : buildEdges (p.stages.map (·.name)) p.stages = .ok es)
    {e : Nat} (hT : toposortG (builtGraph p es) = .error (.cycleAt e)) :
    DagBuilder.build p =
      .error (.circularDependency ((builtGraph p es).find_cycle_members e)) := by
  rw [build_eq, hE]
  show (((builtGraph p es).validate_acyclic) >>= fun _ =>
      Except.ok (builtGraph p es)) = _
  rw [validate_of_toposort_err hT]
  rfl

end Conflow
namespace Conflow

/-- Decidable equality on `Except`, so concrete runs evaluate by `decide`. -/
instance {eps alpha : Type} [DecidableEq eps] [DecidableEq alpha] :
    DecidableEq (Except eps alpha) := fun x y =>
  match x, y with
  | .error a, .error b =>
      if h : a = b then .isTrue (h ▸ rfl)
      else .isFalse (fun hc => h (Except.error.inj hc))
  | .ok a, .ok b =>
      if h : a = b then .isTrue (h ▸ rfl)
      else .isFalse (fun hc => h (Except.ok.inj hc))
  | .error _, .ok _ => .isFalse (fun hc => Except.noConfusion hc)
  | .ok _, .error _ => .isFalse (fun hc => Except.noConfusion hc)

/-- A minimal CUE-vet stage used by the graph-level scenarios. -/
def vetStage (name : String) (deps : List String) : Stage :=
  { name := name, tool := .cue .vet [] [] none, input := .single "*.json",
    depends_on := deps }

/-- The diamond pipeline of scenario S3: `root`, `left`, `right`, `join`. -/
def diamondPipeline : Pipeline :=
  { name := "diamond", stages :=
      [vetStage "root" [], vetStage "left" ["root"], vetStage "right" ["root"],
       vetStage "join" ["left", "right"]] }

/-- Claim **C2, counterexample.**  The diamond pipeline (stages in document order
`root, left, right, join`) builds, but the emitted topological order is
`[0, 2, 1, 3]` — `root, right, left, join` — so simultaneously-ready stages
are *not* ordered by their appearance order in the pipeline document
(which would be `[0, 1, 2, 3]`). -/
theorem diamond_topological_order_not_document_order :
    DagBuilder.build diamondPipeline =
      .ok (builtGraph diamondPipeline [(0, 1), (0, 2), (1, 3), (2, 3)]) ∧
    (builtGraph diamondPipeline
      [(0, 1), (0, 2), (1, 3), (2, 3)]).topological_order = .ok [0, 2, 1, 3] ∧
    [0, 2, 1, 3] ≠ [0, 1, 2, 3] := by
  refine ⟨by decide, by decide, by decide⟩

/-- Claim **C2 (amended).**  For every pipeline that builds an acyclic dependency
graph, the emitted topological order contains every stage exactly once and
respects every declared and implicit edge (`u` before `v` for each edge
`u → v`); simultaneously-ready stages, however, are emitted in the DFS
finishing order of petgraph's toposort, not in document order — for the
diamond the order is `root, right, left, join`. -/
theorem topological_order_perm_and_respects_edges :
    (∀ (p : Pipeline) (b : DagBuilder), DagBuilder.build p = .ok b →
      ∃ order, b.topological_order = .ok order ∧
        order.Perm (List.range p.stages.length) ∧
        (∀ u v, (u, v) ∈ b.edges →
          ∃ pre mid post, order = pre ++ u :: (mid ++ v :: post)) ∧
        (∀ stage ∈ p.stages, ∀ dep ∈ stage.depends_on, ∀ i j,
          lookupName (p.stages.map (·.name)) dep = some i →
          lookupName (p.stages.map (·.name)) stage.name = some j →
          (i, j) ∈ b.edges) ∧
        (∀ stage ∈ p.stages, ∀ r, stage.input.references_stage = some r →
          ∀ i j, lookupName (p.stages.map (·.name)) r = some i →
          lookupName (p.stages.map (·.name)) stage.name = some j →
          (i, j) ∈ b.edges)) ∧
    (builtGraph diamondPipeline
      [(0, 1), (0, 2), (1, 3), (2, 3)]).topological_order = .ok [0, 2, 1, 3] := by
  constructor
  · intro p b hb
    obtain ⟨es, hE, rfl, l, hT⟩ := build_ok_elim hb
    have hwf := buildEdges_wf hE
    rcases toposortG_spec (builtGraph p es) hwf with
      ⟨l', hT', hnd, hcov, hord⟩ | ⟨e, cyc, hT', -⟩
    · refine ⟨l', topological_order_of_toposort_ok hT', ?_, ?_, ?_, ?_⟩
      · refine List.perm_of_nodup_nodup_toFinset_eq hnd (List.nodup_range _) ?_
        ext v
        simp only [List.mem_toFinset, List.mem_range]
        exact hcov v
      · intro u v he
        have hu : u ∈ l' := (hcov u).mpr (hwf (u, v) he).1
        obtain ⟨pre, post1, hl⟩ := List.append_of_mem hu
        have hv : v ∈ post1 := hord pre u post1 hl v (mem_neighbors.mpr he)
        obtain ⟨mid, post, hp⟩ := List.append_of_mem hv
        exact ⟨pre, mid, post, by rw [hl, hp]⟩
      · intro stage hs dep hdep i j hi hj
        rw [buildEdges] at hE
        obtain ⟨-, hdeps, -, -⟩ := buildEdges_props _ _ _ _ hE
        have := hdeps stage hs dep hdep i hi
        rw [hj] at this
        simpa using this
      · intro stage hs r hr i j hi hj
        rw [buildEdges] at hE
        obtain ⟨-, -, hrefs, -⟩ := buildEdges_props _ _ _ _ hE
        have := hrefs stage hs r hr i hi
        rw [hj] at this
        simpa using this
    · rw [hT'] at hT
      exact Except.noConfusion hT
  · decide

/-- Witness for C2 at the diamond pipeline. -/
theorem topological_order_perm_witness :
    ∃ order,
      (builtGraph diamondPipeline
        [(0, 1), (0, 2), (1, 3), (2, 3)]).topological_order = .ok order ∧
      order.Perm (List.range diamondPipeline.stages.length) := by
  obtain ⟨order, h1, h2, -, -, -⟩ :=
    topological_order_perm_and_respects_edges.1 diamondPipeline
      (builtGraph diamondPipeline [(0, 1), (0, 2), (1, 3), (2, 3)]) (by decide)
  exact ⟨order, h1, h2⟩

/-- The mutually-dependent two-stage pipeline of scenario S4. -/
def twoCyclePipeline : Pipeline :=
  { name := "cycle", stages := [vetStage "x" ["y"], vetStage "y" ["x"]] }

/-- A pipeline whose stages form a declared cycle but which also names an
undefined dependency. -/
def cyclicWithUnknownDep : Pipeline :=
  { name := "cyclic-unknown", stages :=
      [vetStage "a" ["b", "zzz"], vetStage "b" ["a"]] }

/-- Claim **C5, counterexample.**  `a` and `b` depend on each other — the
`depends_on` edges contain a directed cycle — yet building fails with an
*unknown-dependency* error (for the stray name `zzz` of `a`), not with a
circular-dependency error: unknown names are detected while edges are
added, before any cycle check runs. -/
theorem unknown_dependency_preempts_cycle_detection :
    "b" ∈ (cyclicWithUnknownDep.stages.getD 0 dummyStage).depends_on ∧
    "a" ∈ (cyclicWithUnknownDep.stages.getD 1 dummyStage).depends_on ∧
    DagBuilder.build cyclicWithUnknownDep =
      .error (.unknownDependency "a" "zzz") := by
  refine ⟨by decide, by decide, by decide⟩

/-- Claim **C5 (amended).**  For every pipeline whose dependency names all
resolve (edge addition succeeds) and whose resulting graph contains a
directed cycle, `DagBuilder::build` fails with a circular-dependency error,
and the error's member list contains a stage name lying on a directed
cycle of the graph. -/
theorem build_reports_circular_dependency :
    ∀ (p : Pipeline) (es : List (Nat × Nat)),
    buildEdges (p.stages.map (·.name)) p.stages = .ok es →
    ∀ v0 cyc0, IsCycleFrom (builtGraph p es) v0 cyc0 →
    ∃ members, DagBuilder.build p = .error (.circularDependency members) ∧
      ∃ e cyc, IsCycleFrom (builtGraph p es) e cyc ∧
        (builtGraph p es).nameOf e ∈ members ∧
        (builtGraph p es).nameOf e ∈ ((e :: cyc).map (builtGraph p es).nameOf) := by
  intro p es hE v0 cyc0 hcyc0
  have hwf := buildEdges_wf hE
  rcases toposortG_spec (builtGraph p es) hwf with
    ⟨l', hT', hnd, hcov, hord⟩ | ⟨e, cyc, hT', hcyc⟩
  · exact absurd hcyc0 (ok_no_cycle (builtGraph p es) l' hnd hcov hwf hord v0 cyc0)
  · refine ⟨(builtGraph p es).find_cycle_members e,
      build_err_of_cycle hE hT', e, cyc, hcyc, ?_, ?_⟩
    · unfold DagBuilder.find_cycle_members
      exact List.mem_cons_self _ _
    · simp

/-- Witness for C5 at the two-stage cycle. -/
theorem build_reports_circular_dependency_witness :
    ∃ members, DagBuilder.build twoCyclePipeline =
        .error (.circularDependency members) ∧
      ∃ e cyc, IsCycleFrom (builtGraph twoCyclePipeline [(1, 0), (0, 1)]) e cyc ∧
        (builtGraph twoCyclePipeline [(1, 0), (0, 1)]).nameOf e ∈ members ∧
        (builtGraph twoCyclePipeline [(1, 0), (0, 1)]).nameOf e ∈
          ((e :: cyc).map (builtGraph twoCyclePipeline [(1, 0), (0, 1)]).nameOf) :=
  build_reports_circular_dependency twoCyclePipeline [(1, 0), (0, 1)]
    (by decide) 0 [1]
    (List.Chain.cons (by decide) (List.Chain.cons (by decide) List.Chain.nil))

end Conflow
namespace Conflow

/-- The stage of the C1 scenario: a fixed definition with a two-entry
environment mapping. -/
def envStage : Stage :=
  { name := "build", tool := .shell "make" "bash", input := .single "src/*",
    env := [("A", "1"), ("B", "2")] }

/-- Claim **C1.**  `hash_stage` feeds the environment entries to the hasher in
the map's iteration order, without sorting: the two iteration orders of the
*same* two-entry mapping feed different byte streams to BLAKE3, so the
fingerprint is not a function of the stage definition and input contents
alone, and is not stable across processes (Rust's `HashMap` iteration
order is randomized per process). -/
theorem hash_stage_depends_on_env_iteration_order :
    List.Perm [("A", "1"), ("B", "2")] [("B", "2"), ("A", "1")] ∧
    ContentHasher.hashStage envStage [("A", "1"), ("B", "2")] "input-bytes" ≠
      ContentHasher.hashStage envStage [("B", "2"), ("A", "1")] "input-bytes" :=
  ⟨by decide, by decide⟩

theorem pathExists_of_lookup {fs : Fs} {p : String} {d : FileData}
    (h : fs.lookup p = some d) : fs.pathExists p = true := by
  unfold Fs.pathExists
  rw [h]
  rfl

/-- Claim **C3.**  A cache lookup that finds a stored entry with a missing
output deletes the entry file and reports a miss; and any result a lookup
does return has `cache_hit = true` with every recorded output existing on
disk at lookup time. -/
theorem cache_get_staleness_sound (c : FilesystemCache) (ib : Stage → String)
    (fs : Fs) (stage : Stage) :
    (∀ e, fs.lookup (c.cachePath (c.cacheKey ib stage)) = some (.entry e) →
      (∃ pth ∈ e.result.outputs, ¬ fs.pathExists pth) →
      c.get ib fs stage =
        .ok (fs.remove (c.cachePath (c.cacheKey ib stage)), none)) ∧
    (∀ fs' r, c.get ib fs stage = .ok (fs', some r) →
      r.cache_hit = true ∧ ∀ pth ∈ r.outputs, fs.pathExists pth) := by
  constructor
  · intro e he hmiss
    have hpe := pathExists_of_lookup he
    show (if ¬ fs.pathExists (c.cachePath (c.cacheKey ib stage)) then
        Except.ok (fs, none)
      else
        match fs.lookup (c.cachePath (c.cacheKey ib stage)) with
        | none => Except.ok (fs, none)
        | some (.plain _) =>
            Except.error (ConflowError.cacheError "Failed to parse cache entry")
        | some (.entry e) =>
            if e.result.outputs.all fs.pathExists then
              Except.ok (fs, some e.result.toResult)
            else
              Except.ok (fs.remove (c.cachePath (c.cacheKey ib stage)), none)) =
      Except.ok (fs.remove (c.cachePath (c.cacheKey ib stage)), none)
    rw [if_neg (by simp [hpe]), he]
    have hall : ¬ (e.result.outputs.all fs.pathExists = true) := by
      obtain ⟨pth, hpth, hne⟩ := hmiss
      intro hc
      exact hne (List.all_eq_true.mp hc pth hpth)
    show (if e.result.outputs.all fs.pathExists then
        Except.ok (fs, some e.result.toResult)
      else
        Except.ok (fs.remove (c.cachePath (c.cacheKey ib stage)), none)) = _
    rw [if_neg hall]
  · intro fs' r h
    replace h : (if ¬ fs.pathExists (c.cachePath (c.cacheKey ib stage)) then
        Except.ok (fs, none)
      else
        match fs.lookup (c.cachePath (c.cacheKey ib stage)) with
        | none => Except.ok (fs, none)
        | some (.plain _) =>
            Except.error (ConflowError.cacheError "Failed to parse cache entry")
        | some (.entry e) =>
            if e.result.outputs.all fs.pathExists then
              Except.ok (fs, some e.result.toResult)
            else
              Except.ok (fs.remove (c.cachePath (c.cacheKey ib stage)), none)) =
      Except.ok (fs', some r) := h
    by_cases hpe : fs.pathExists (c.cachePath (c.cacheKey ib stage))
    · rw [if_neg (by simp [hpe])] at h
      rcases hl : fs.lookup (c.cachePath (c.cacheKey ib stage)) with - | d
      · rw [hl] at h
        simp at h
      · rw [hl] at h
        cases d with
        | plain s => exact Except.noConfusion h
        | entry e =>
            replace h : (if e.result.outputs.all fs.pathExists then
                Except.ok (fs, some e.result.toResult)
              else
                Except.ok (fs.remove (c.cachePath (c.cacheKey ib stage)),
                  none)) = Except.ok (fs', some r) := h
            by_cases hall : e.result.outputs.all fs.pathExists = true
            · rw [if_pos hall] at h
              obtain ⟨-, h2⟩ := Prod.mk.injEq .. ▸ Except.ok.inj h
              obtain rfl := Option.some.inj h2
              exact ⟨rfl, fun pth hpth => List.all_eq_true.mp hall pth hpth⟩
            · rw [if_neg hall] at h
              obtain ⟨-, h2⟩ := Prod.mk.injEq .. ▸ Except.ok.inj h
              exact Option.noConfusion h2
    · rw [if_pos (by simp [hpe])] at h
      obtain ⟨-, h2⟩ := Prod.mk.injEq .. ▸ Except.ok.inj h
      exact Option.noConfusion h2

end Conflow
namespace Conflow

theorem Fs.lookup_write_self (fs : Fs) (p : String) (d : FileData) :
    (fs.write p d).lookup p = some d := by
  unfold Fs.write Fs.lookup Fs.resolve
  simp [List.find?]

/-- Claim **C6 (amended).**  `store(stage, R)` followed by `get(stage)` with no
mutation in between returns a result agreeing with `R` on stdout, stderr,
exit code and outputs, with `cache_hit = true` — *provided* every path in
`R.outputs` exists on disk after the store; `get` re-verifies the outputs
and otherwise evicts the fresh entry and misses. -/
theorem store_then_get_roundtrip (c : FilesystemCache) (ib : Stage → String)
    (now : Nat) (fs : Fs) (stage : Stage) (R : ExecutionResult)
    (hout : ∀ pth ∈ R.outputs,
      (fs.write (c.cachePath (c.cacheKey ib stage))
        (.entry { timestamp := now, stage_name := stage.name,
                  cache_key := c.cacheKey ib stage,
                  result := CachedResult.ofResult R })).pathExists pth) :
    ∃ fs' r, c.store ib now fs stage R = .ok fs' ∧
      c.get ib fs' stage = .ok (fs', some r) ∧
      r.stdout = R.stdout ∧ r.stderr = R.stderr ∧
      r.exit_code = R.exit_code ∧ r.outputs = R.outputs ∧
      r.cache_hit = true := by
  refine ⟨fs.write (c.cachePath (c.cacheKey ib stage))
      (.entry { timestamp := now, stage_name := stage.name,
                cache_key := c.cacheKey ib stage,
                result := CachedResult.ofResult R }),
    (CachedResult.ofResult R).toResult, rfl, ?_, rfl, rfl, rfl, rfl, rfl⟩
  have hlk := Fs.lookup_write_self fs (c.cachePath (c.cacheKey ib stage))
    (.entry { timestamp := now, stage_name := stage.name,
              cache_key := c.cacheKey ib stage,
              result := CachedResult.ofResult R })
  have hpe := pathExists_of_lookup hlk
  show (if ¬ (fs.write (c.cachePath (c.cacheKey ib stage))
        (.entry { timestamp := now, stage_name := stage.name,
                  cache_key := c.cacheKey ib stage,
                  result := CachedResult.ofResult R })).pathExists
          (c.cachePath (c.cacheKey ib stage)) then
      Except.ok (fs.write (c.cachePath (c.cacheKey ib stage))
        (.entry { timestamp := now, stage_name := stage.name,
                  cache_key := c.cacheKey ib stage,
                  result := CachedResult.ofResult R }), none)
    else
      match (fs.write (c.cachePath (c.cacheKey ib stage))
        (.entry { timestamp := now, stage_name := stage.name,
                  cache_key := c.cacheKey ib stage,
                  result := CachedResult.ofResult R })).lookup
          (c.cachePath (c.cacheKey ib stage)) with
      | none => Except.ok (fs.write (c.cachePath (c.cacheKey ib stage))
          (.entry { timestamp := now, stage_name := stage.name,
                    cache_key := c.cacheKey ib stage,
                    result := CachedResult.ofResult R }), none)
      | some (.plain _) =>
          Except.error (ConflowError.cacheError "Failed to parse cache entry")
      | some (.entry e) =>
          if e.result.outputs.all (fs.write (c.cachePath (c.cacheKey ib stage))
              (.entry { timestamp := now, stage_name := stage.name,
                        cache_key := c.cacheKey ib stage,
                        result := CachedResult.ofResult R })).pathExists then
            Except.ok (fs.write (c.cachePath (c.cacheKey ib stage))
              (.entry { timestamp := now, stage_name := stage.name,
                        cache_key := c.cacheKey ib stage,
                        result := CachedResult.ofResult R }),
              some e.result.toResult)
          else
            Except.ok ((fs.write (c.cachePath (c.cacheKey ib stage))
              (.entry { timestamp := now, stage_name := stage.name,
                        cache_key := c.cacheKey ib stage,
                        result := CachedResult.ofResult R })).remove
                (c.cachePath (c.cacheKey ib stage)), none)) = _
  rw [if_neg (by simp [hpe]), hlk]
  show (if (CachedResult.ofResult R).outputs.all
        (fs.write (c.cachePath (c.cacheKey ib stage))
          (.entry { timestamp := now, stage_name := stage.name,
                    cache_key := c.cacheKey ib stage,
                    result := CachedResult.ofResult R })).pathExists then _
    else _) = _
  have hall : ((CachedResult.ofResult R).outputs.all
      (fs.write (c.cachePath (c.cacheKey ib stage))
        (.entry { timestamp := now, stage_name := stage.name,
                  cache_key := c.cacheKey ib stage,
                  result := CachedResult.ofResult R })).pathExists) = true :=
    List.all_eq_true.mpr hout
  rw [if_pos hall]

end Conflow
namespace Conflow

theorem except_bind_ok {eps a b : Type} (x : a) (f : a → Except eps b) :
    (Except.ok x >>= f : Except eps b) = f x := rfl

theorem except_bind_err {eps a b : Type} (e : eps) (f : a → Except eps b) :
    (Except.error e >>= f : Except eps b) = Except.error e := rfl

/-! ### Concrete cache scenario used by the witnesses -/

def wCache : FilesystemCache :=
  { cache_dir := "/w/.conflow/cache", base_dir := "/w" }

def wIb : Stage → String := fun _ => "bytes"

def wStage : Stage := vetStage "v" []

def wKey : String := wCache.cacheKey wIb wStage

def wPath : String := wCache.cachePath wKey

def wEntryMiss : CachedEntry :=
  { timestamp := 0, stage_name := "v", cache_key := wKey,
    result := { success := true, stdout := "o", stderr := "", exit_code := 0,
                outputs := ["out.json"], duration_ms := 5 } }

def wFsMiss : Fs := { cwd := "/w", files := [(wPath, .entry wEntryMiss)] }

def wEntryHit : CachedEntry :=
  { timestamp := 0, stage_name := "v", cache_key := wKey,
    result := { success := true, stdout := "o", stderr := "", exit_code := 0,
                outputs := ["out.json"], duration_ms := 5 } }

def wFsHit : Fs :=
  { cwd := "/w", files := [(wPath, .entry wEntryHit), ("/w/out.json", .plain "x")] }

/-- Witness for C3: a stale entry (its `out.json` is gone) is evicted and
missed; a fresh entry whose output exists is returned with
`cache_hit = true`. -/
theorem cache_get_staleness_sound_witness :
    FilesystemCache.get wCache wIb wFsMiss wStage =
      .ok (wFsMiss.remove wPath, none) ∧
    (wEntryHit.result.toResult.cache_hit = true ∧
      ∀ pth ∈ wEntryHit.result.toResult.outputs, wFsHit.pathExists pth) := by
  refine ⟨?_, ?_⟩
  · exact (cache_get_staleness_sound wCache wIb wFsMiss wStage).1 wEntryMiss
      (by decide) ⟨"out.json", by decide, by decide⟩
  · exact (cache_get_staleness_sound wCache wIb wFsHit wStage).2 wFsHit
      wEntryHit.result.toResult (by decide)

/-- A successful result whose declared output was never written to disk. -/
def phantomR : ExecutionResult :=
  { success := true, stdout := "o", stderr := "e", exit_code := 0,
    outputs := ["out.json"], duration := 7, cache_hit := false }

def phantomFs1 : Fs :=
  Fs.write { cwd := "/w", files := [] } wPath
    (.entry { timestamp := 0, stage_name := "v", cache_key := wKey,
              result := CachedResult.ofResult phantomR })

/-- Claim **C6, counterexample.**  Storing a result whose recorded output path
does not exist on disk and immediately looking it up — with no mutating
operation in between — yields a *miss* (and evicts the just-written
entry), not the stored result: `get` re-verifies output existence. -/
theorem store_then_get_misses_on_phantom_output :
    FilesystemCache.store wCache wIb 0 { cwd := "/w", files := [] } wStage
      phantomR = .ok phantomFs1 ∧
    FilesystemCache.get wCache wIb phantomFs1 wStage =
      .ok (phantomFs1.remove wPath, none) :=
  ⟨by decide, by decide⟩

def roundFs : Fs := { cwd := "/w", files := [("/w/out.json", .plain "x")] }

/-- Witness for C6 (amended): when the output file exists, store-then-get
round-trips. -/
theorem store_then_get_roundtrip_witness :
    ∃ fs' r, FilesystemCache.store wCache wIb 0 roundFs wStage phantomR =
        .ok fs' ∧
      FilesystemCache.get wCache wIb fs' wStage = .ok (fs', some r) ∧
      r.stdout = phantomR.stdout ∧ r.stderr = phantomR.stderr ∧
      r.exit_code = phantomR.exit_code ∧ r.outputs = phantomR.outputs ∧
      r.cache_hit = true :=
  store_then_get_roundtrip wCache wIb 0 roundFs wStage phantomR (by decide)

/-- Claim **C8 (amended).**  A cache entry file that does not parse makes
`FilesystemCache::get` return a `CacheError` — not a successful miss — and
it is the *executor's* probe (`if let Ok(Some(cached)) = cache.get(..)`)
that swallows the error, degrading the lookup to a miss so the stage is
executed afresh. -/
theorem corrupt_entry_errors_and_probe_degrades (c : FilesystemCache)
    (ib : Stage → String) (fs : Fs) (stage : Stage) (s : String)
    (opts : ExecutionOptions) (hnc : opts.no_cache = false)
    (hlk : fs.lookup (c.cachePath (c.cacheKey ib stage)) = some (.plain s)) :
    c.get ib fs stage = .error (.cacheError "Failed to parse cache entry") ∧
    cacheProbe opts (some c) ib fs stage = (fs, none) := by
  have hpe := pathExists_of_lookup hlk
  have hget : c.get ib fs stage =
      .error (.cacheError "Failed to parse cache entry") := by
    show (if ¬ fs.pathExists (c.cachePath (c.cacheKey ib stage)) then
        Except.ok (fs, none)
      else
        match fs.lookup (c.cachePath (c.cacheKey ib stage)) with
        | none => Except.ok (fs, none)
        | some (.plain _) =>
            Except.error (ConflowError.cacheError "Failed to parse cache entry")
        | some (.entry e) =>
            if e.result.outputs.all fs.pathExists then
              Except.ok (fs, some e.result.toResult)
            else
              Except.ok (fs.remove (c.cachePath (c.cacheKey ib stage)), none)) =
      Except.error (ConflowError.cacheError "Failed to parse cache entry")
    rw [if_neg (by simp [hpe]), hlk]
  refine ⟨hget, ?_⟩
  unfold cacheProbe
  simp [hnc, hget]

def corruptFs : Fs := { cwd := "/w", files := [(wPath, .plain "garbage")] }

/-- Claim **C8, counterexample.**  With an unparsable entry file at the stage's
cache path, `FilesystemCache::get` returns a `CacheError` instead of
degrading to a successful miss. -/
theorem corrupt_entry_get_errors :
    FilesystemCache.get wCache wIb corruptFs wStage =
      .error (.cacheError "Failed to parse cache entry") := by decide

/-- Witness for C8 (amended) on the corrupt-entry filesystem. -/
theorem corrupt_entry_probe_degrades_witness :
    FilesystemCache.get wCache wIb corruptFs wStage =
      .error (.cacheError "Failed to parse cache entry") ∧
    cacheProbe {} (some wCache) wIb corruptFs wStage = (corruptFs, none) :=
  corrupt_entry_errors_and_probe_degrades wCache wIb corruptFs wStage
    "garbage" {} rfl (by decide)

end Conflow
namespace Conflow

/-- Claim **C7 (amended).**  When a reached stage's glob pattern matches zero
files, the adapter's `NoInputFiles` error propagates out of
`execute_stage` through the `?` operator: the whole run aborts with that
error; no per-stage failure is recorded and `allow_failure` never
applies. -/
theorem glob_zero_match_aborts_run (p : Pipeline) (wd : String)
    (opts : ExecutionOptions) (cacheOpt : Option FilesystemCache)
    (ib : Stage → String) (adapters : String → Option Adapter) (now : Nat)
    (idx : Nat) (rest : List Nat) (fs : Fs)
    (results : List (String × ExecutionResult))
    (globFn : String → List String) (proc : ProcOutput)
    (hnc : opts.no_cache = true)
    (had : adapters (p.stages.getD idx dummyStage).tool_name =
      some (cueAdapter globFn proc))
    (cc : CueCommand) (sch fl : List String) (fm : Option OutputFormat)
    (htool : (p.stages.getD idx dummyStage).tool = .cue cc sch fl fm)
    (href : (p.stages.getD idx dummyStage).input.references_stage = none)
    (pat : String) (pats : List String)
    (hpats : (p.stages.getD idx dummyStage).input.patterns = pat :: pats)
    (hglob : globFn (if isAbsolute pat then pat else pathJoin wd pat) = []) :
    runStages p wd opts cacheOpt ib adapters now (idx :: rest) fs results =
      .error (.noInputFiles pat) := by
  have hglobs : resolveGlobs globFn
      ((p.stages.getD idx dummyStage).input.patterns) wd =
      .error (.noInputFiles pat) := by
    rw [hpats]
    show (if (globFn (if isAbsolute pat then pat else pathJoin wd pat)).isEmpty
        then Except.error (ConflowError.noInputFiles pat)
      else do
        let more ← resolveGlobs globFn pats wd
        Except.ok ((globFn (if isAbsolute pat then pat else pathJoin wd pat))
          ++ more)) = _
    rw [hglob]
    rfl
  have hinp : CueExecutor.resolveInputs globFn (p.stages.getD idx dummyStage)
      wd none = .error (.noInputFiles pat) := by
    unfold CueExecutor.resolveInputs
    rw [hpats] at hglobs ⊢
    simp [hglobs]
  have hexe : CueExecutor.execute globFn proc (p.stages.getD idx dummyStage)
      wd none fs = .error (.noInputFiles pat) := by
    unfold CueExecutor.execute
    rw [htool]
    show ((CueExecutor.resolveInputs globFn (p.stages.getD idx dummyStage)
        wd none) >>= fun _inputFiles =>
        Except.ok (CueExecutor.finish proc (p.stages.getD idx dummyStage)
          wd fs)) = Except.error (ConflowError.noInputFiles pat)
    rw [hinp]
    rfl
  have hstage : execStage adapters (p.stages.getD idx dummyStage) wd
      (mergeEnv p.env (p.stages.getD idx dummyStage).env) results fs =
      .error (.noInputFiles pat) := by
    unfold execStage
    rw [had]
    show ((Except.ok (cueAdapter globFn proc) : Except ConflowError Adapter) >>=
        fun adapter => (resolveStageInput (p.stages.getD idx dummyStage)
          results) >>= fun resolved =>
          adapter.run (p.stages.getD idx dummyStage) wd
            (mergeEnv p.env (p.stages.getD idx dummyStage).env) resolved fs) = _
    rw [except_bind_ok]
    have hres : resolveStageInput (p.stages.getD idx dummyStage) results =
        .ok none := by
      unfold resolveStageInput
      rw [href]
    rw [hres, except_bind_ok]
    exact hexe
  show (match cacheProbe opts cacheOpt ib fs (p.stages.getD idx dummyStage) with
    | (fs', some cached) =>
        runStages p wd opts cacheOpt ib adapters now rest fs'
          (insertResult results (p.stages.getD idx dummyStage).name cached)
    | (fs', none) =>
        match execStage adapters (p.stages.getD idx dummyStage) wd
          (mergeEnv p.env (p.stages.getD idx dummyStage).env) results fs' with
        | .error e => .error e
        | .ok (result, fs₂) =>
            if result.success then
              runStages p wd opts cacheOpt ib adapters now rest
                (storeStep opts cacheOpt ib now fs₂
                  (p.stages.getD idx dummyStage) result)
                (insertResult results (p.stages.getD idx dummyStage).name result)
            else
              if ¬ (p.stages.getD idx dummyStage).allow_failure then
                .ok (insertResult results (p.stages.getD idx dummyStage).name
                  result, fs₂, false)
              else
                runStages p wd opts cacheOpt ib adapters now rest fs₂
                  (insertResult results (p.stages.getD idx dummyStage).name
                    result)) = Except.error (ConflowError.noInputFiles pat)
  have hpro : cacheProbe opts cacheOpt ib fs (p.stages.getD idx dummyStage) =
      (fs, none) := by
    unfold cacheProbe
    rw [hnc]
    simp
  rw [hpro]
  show (match execStage adapters (p.stages.getD idx dummyStage) wd
      (mergeEnv p.env (p.stages.getD idx dummyStage).env) results fs with
    | .error e => Except.error e
    | .ok (result, fs₂) =>
        if result.success then
          runStages p wd opts cacheOpt ib adapters now rest
            (storeStep opts cacheOpt ib now fs₂
              (p.stages.getD idx dummyStage) result)
            (insertResult results (p.stages.getD idx dummyStage).name result)
        else
          if ¬ (p.stages.getD idx dummyStage).allow_failure then
            .ok (insertResult results (p.stages.getD idx dummyStage).name
              result, fs₂, false)
          else
            runStages p wd opts cacheOpt ib adapters now rest fs₂
              (insertResult results (p.stages.getD idx dummyStage).name
                result)) = Except.error (ConflowError.noInputFiles pat)
  rw [hstage]

end Conflow
namespace Conflow

def globZero : String → List String := fun _ => []

def procZero : ProcOutput := { success := true, code := 0, stdout := "", stderr := "" }

def c7Pipeline : Pipeline := { name := "c7", stages := [vetStage "validate" []] }

def c7Adapters : String → Option Adapter :=
  fun t => if t == "cue" then some (cueAdapter globZero procZero) else none

/-- Claim **C7, counterexample.**  A run whose only stage declares the glob
`*.json` matching zero files does not record a per-stage failure and
continue: `PipelineExecutor::execute` returns the `NoInputFiles` error —
the whole run aborts with no results table at all. -/
theorem glob_zero_match_aborts_whole_run :
    PipelineExecutor.execute c7Pipeline "/w" { no_cache := true } none wIb
      c7Adapters 0 { cwd := "/w", files := [] } =
      .error (.noInputFiles "*.json") := by decide

/-- Witness for C7 (amended) at the single-stage pipeline. -/
theorem glob_zero_match_aborts_run_witness :
    runStages c7Pipeline "/w" { no_cache := true } none wIb c7Adapters 0
      [0] { cwd := "/w", files := [] } [] = .error (.noInputFiles "*.json") :=
  glob_zero_match_aborts_run c7Pipeline "/w" { no_cache := true } none wIb
    c7Adapters 0 0 [] { cwd := "/w", files := [] } [] globZero procZero rfl
    rfl .vet [] [] none rfl rfl "*.json" [] rfl rfl

/-! ### C4: only successful results reach the cache -/

/-- A cache-entry file present in the filesystem (keyed by the resolved
path). -/
def entryAt (fs : Fs) (q : String) (e : CachedEntry) : Prop :=
  (q, FileData.entry e) ∈ fs.files

theorem entryAt_remove {fs : Fs} {p q : String} {e : CachedEntry}
    (h : entryAt (fs.remove p) q e) : entryAt fs q e := by
  unfold entryAt Fs.remove at *
  exact (List.mem_filter.mp h).1

theorem get_fs_cases (c : FilesystemCache) (ib : Stage → String) (fs : Fs)
    (stage : Stage) (fs' : Fs) (res : Option ExecutionResult)
    (h : c.get ib fs stage = .ok (fs', res)) :
    fs' = fs ∨ fs' = fs.remove (c.cachePath (c.cacheKey ib stage)) := by
  replace h : (if ¬ fs.pathExists (c.cachePath (c.cacheKey ib stage)) then
      Except.ok (fs, none)
    else
      match fs.lookup (c.cachePath (c.cacheKey ib stage)) with
      | none => Except.ok (fs, none)
      | some (.plain _) =>
          Except.error (ConflowError.cacheError "Failed to parse cache entry")
      | some (.entry e) =>
          if e.result.outputs.all fs.pathExists then
            Except.ok (fs, some e.result.toResult)
          else
            Except.ok (fs.remove (c.cachePath (c.cacheKey ib stage)), none)) =
    Except.ok (fs', res) := h
  by_cases hpe : fs.pathExists (c.cachePath (c.cacheKey ib stage))
  · rw [if_neg (by simp [hpe])] at h
    rcases hl : fs.lookup (c.cachePath (c.cacheKey ib stage)) with - | d
    · rw [hl] at h
      simp only [Except.ok.injEq, Prod.mk.injEq] at h
      exact Or.inl h.1.symm
    · rw [hl] at h
      cases d with
      | plain s => exact Except.noConfusion h
      | entry e =>
          replace h : (if e.result.outputs.all fs.pathExists then
              Except.ok (fs, some e.result.toResult)
            else
              Except.ok (fs.remove (c.cachePath (c.cacheKey ib stage)),
                none)) = Except.ok (fs', res) := h
          by_cases hall : e.result.outputs.all fs.pathExists = true
          · rw [if_pos hall] at h
            simp only [Except.ok.injEq, Prod.mk.injEq] at h
            exact Or.inl h.1.symm
          · rw [if_neg hall] at h
            simp only [Except.ok.injEq, Prod.mk.injEq] at h
            exact Or.inr h.1.symm
  · rw [if_pos (by simp [hpe])] at h
    simp only [Except.ok.injEq, Prod.mk.injEq] at h
    exact Or.inl h.1.symm

theorem cacheProbe_entries (opts : ExecutionOptions)
    (cacheOpt : Option FilesystemCache) (ib : Stage → String) (fs : Fs)
    (stage : Stage) :
    ∀ q e, entryAt (cacheProbe opts cacheOpt ib fs stage).1 q e →
      entryAt fs q e := by
  intro q e he
  unfold cacheProbe at he
  by_cases hnc : opts.no_cache
  · rw [if_pos hnc] at he
    exact he
  · rw [if_neg hnc] at he
    cases cacheOpt with
    | none => exact he
    | some c =>
        replace he : entryAt (match c.get ib fs stage with
          | Except.ok (fs', res) => (fs', res)
          | Except.error _ => (fs, none)).1 q e := he
        rcases hg : c.get ib fs stage with e1 | ⟨fs₁, res⟩
        · rw [hg] at he
          exact he
        · rw [hg] at he
          rcases get_fs_cases c ib fs stage fs₁ res hg with rfl | hrm
          · exact he
          · rw [hrm] at he
            exact entryAt_remove he

theorem storeStep_entries (opts : ExecutionOptions)
    (cacheOpt : Option FilesystemCache) (ib : Stage → String) (now : Nat)
    (fs : Fs) (stage : Stage) (result : ExecutionResult)
    (hs : result.success = true) :
    ∀ q e, entryAt (storeStep opts cacheOpt ib now fs stage result) q e →
      entryAt fs q e ∨ e.result.success = true := by
  intro q e he
  unfold storeStep at he
  by_cases hnc : opts.no_cache
  · rw [if_pos hnc] at he
    exact Or.inl he
  · rw [if_neg hnc] at he
    cases cacheOpt with
    | none => exact Or.inl he
    | some c =>
        replace he : entryAt (fs.write (c.cachePath (c.cacheKey ib stage))
          (.entry { timestamp := now, stage_name := stage.name,
                    cache_key := c.cacheKey ib stage,
                    result := CachedResult.ofResult result })) q e := he
        unfold entryAt Fs.write at he
        rcases List.mem_cons.mp he with h1 | h1
        · obtain ⟨-, h2⟩ := Prod.mk.injEq .. ▸ h1
          obtain rfl := FileData.entry.inj h2
          exact Or.inr hs
        · exact Or.inl (List.mem_filter.mp h1).1

theorem execStage_run (adapters : String → Option Adapter) (stage : Stage)
    (wd : String) (env : List (String × String))
    (results : List (String × ExecutionResult)) (fs : Fs)
    (r : ExecutionResult) (fs₂ : Fs)
    (h : execStage adapters stage wd env results fs = .ok (r, fs₂)) :
    ∃ a, adapters stage.tool_name = some a ∧
      ∃ resolved, a.run stage wd env resolved fs = .ok (r, fs₂) := by
  unfold execStage at h
  rcases ha : adapters stage.tool_name with - | a
  · rw [ha] at h
    exact Except.noConfusion h
  · rw [ha] at h
    replace h : ((resolveStageInput stage results) >>= fun resolved =>
        a.run stage wd env resolved fs) = Except.ok (r, fs₂) := h
    rcases hres : resolveStageInput stage results with e1 | resolved
    · rw [hres] at h
      exact Except.noConfusion h
    · rw [hres] at h
      exact ⟨a, rfl, resolved, h⟩

/-- Adapters that do not forge cache-entry files (tool adapters write tool
outputs, not entries under the cache directory). -/
def PreservesEntries (adapters : String → Option Adapter) : Prop :=
  ∀ t a, adapters t = some a → ∀ stage wd env resolved fs r fs',
    a.run stage wd env resolved fs = .ok (r, fs') →
    ∀ q e, entryAt fs' q e → entryAt fs q e

/-- Claim **C4.**  Over any run of the stage loop, a cache entry present
afterwards but not before records a *successful* result: the executor
stores a result only inside the `if result.success` branch, so a failing
stage — `allow_failure` or not — is never written to the cache. -/
theorem only_successful_results_cached (p : Pipeline) (wd : String)
    (opts : ExecutionOptions) (cacheOpt : Option FilesystemCache)
    (ib : Stage → String) (adapters : String → Option Adapter) (now : Nat)
    (hAd : PreservesEntries adapters) :
    ∀ (idxs : List Nat) (fs : Fs) (results : List (String × ExecutionResult))
      (res' : List (String × ExecutionResult)) (fs' : Fs) (b : Bool),
    runStages p wd opts cacheOpt ib adapters now idxs fs results =
      .ok (res', fs', b) →
    ∀ q e, entryAt fs' q e → entryAt fs q e ∨ e.result.success = true := by
  intro idxs
  induction idxs with
  | nil =>
      intro fs results res' fs' b h q e he
      replace h : (Except.ok (results, fs, true) :
          Except ConflowError (List (String × ExecutionResult) × Fs × Bool)) =
        .ok (res', fs', b) := h
      simp only [Except.ok.injEq, Prod.mk.injEq] at h
      obtain ⟨-, rfl, -⟩ := h
      exact Or.inl he
  | cons idx rest ih =>
      intro fs results res' fs' b h q e he
      replace h : (match cacheProbe opts cacheOpt ib fs
          (p.stages.getD idx dummyStage) with
        | (fs₁, some cached) =>
            runStages p wd opts cacheOpt ib adapters now rest fs₁
              (insertResult results (p.stages.getD idx dummyStage).name cached)
        | (fs₁, none) =>
            match execStage adapters (p.stages.getD idx dummyStage) wd
              (mergeEnv p.env (p.stages.getD idx dummyStage).env) results
              fs₁ with
            | .error err => .error err
            | .ok (result, fs₂) =>
                if result.success then
                  runStages p wd opts cacheOpt ib adapters now rest
                    (storeStep opts cacheOpt ib now fs₂
                      (p.stages.getD idx dummyStage) result)
                    (insertResult results (p.stages.getD idx dummyStage).name
                      result)
                else
                  if ¬ (p.stages.getD idx dummyStage).allow_failure then
                    .ok (insertResult results
                      (p.stages.getD idx dummyStage).name result, fs₂, false)
                  else
                    runStages p wd opts cacheOpt ib adapters now rest fs₂
                      (insertResult results
                        (p.stages.getD idx dummyStage).name result)) =
        .ok (res', fs', b) := h
      rcases hp : cacheProbe opts cacheOpt ib fs
        (p.stages.getD idx dummyStage) with ⟨fs₁, cres⟩
      rw [hp] at h
      have hfs₁ : ∀ q e, entryAt fs₁ q e → entryAt fs q e := by
        have hc := cacheProbe_entries opts cacheOpt ib fs
          (p.stages.getD idx dummyStage)
        rw [hp] at hc
        exact hc
      cases cres with
      | some cached =>
          replace h : runStages p wd opts cacheOpt ib adapters now rest fs₁
            (insertResult results (p.stages.getD idx dummyStage).name
              cached) = .ok (res', fs', b) := h
          rcases ih fs₁ _ res' fs' b h q e he with h1 | h1
          · exact Or.inl (hfs₁ q e h1)
          · exact Or.inr h1
      | none =>
          replace h : (match execStage adapters (p.stages.getD idx dummyStage)
              wd (mergeEnv p.env (p.stages.getD idx dummyStage).env) results
              fs₁ with
            | Except.error err => Except.error err
            | Except.ok (result, fs₂) =>
                if result.success then
                  runStages p wd opts cacheOpt ib adapters now rest
                    (storeStep opts cacheOpt ib now fs₂
                      (p.stages.getD idx dummyStage) result)
                    (insertResult results (p.stages.getD idx dummyStage).name
                      result)
                else
                  if ¬ (p.stages.getD idx dummyStage).allow_failure then
                    Except.ok (insertResult results
                      (p.stages.getD idx dummyStage).name result, fs₂, false)
                  else
                    runStages p wd opts cacheOpt ib adapters now rest fs₂
                      (insertResult results
                        (p.stages.getD idx dummyStage).name result)) =
            .ok (res', fs', b) := h
          rcases hex : execStage adapters (p.stages.getD idx dummyStage) wd
            (mergeEnv p.env (p.stages.getD idx dummyStage).env) results
            fs₁ with e1 | ⟨result, fs₂⟩
          · rw [hex] at h
            exact Except.noConfusion h
          · rw [hex] at h
            replace h : (if result.success then
                runStages p wd opts cacheOpt ib adapters now rest
                  (storeStep opts cacheOpt ib now fs₂
                    (p.stages.getD idx dummyStage) result)
                  (insertResult results (p.stages.getD idx dummyStage).name
                    result)
              else
                if ¬ (p.stages.getD idx dummyStage).allow_failure then
                  Except.ok (insertResult results
                    (p.stages.getD idx dummyStage).name result, fs₂, false)
                else
                  runStages p wd opts cacheOpt ib adapters now rest fs₂
                    (insertResult results
                      (p.stages.getD idx dummyStage).name result)) =
              .ok (res', fs', b) := h
            have hfs₂ : ∀ q e, entryAt fs₂ q e → entryAt fs₁ q e := by
              obtain ⟨a, ha, resolved, hrun⟩ := execStage_run adapters
                (p.stages.getD idx dummyStage) wd
                (mergeEnv p.env (p.stages.getD idx dummyStage).env) results
                fs₁ result fs₂ hex
              exact fun q e he' =>
                hAd (p.stages.getD idx dummyStage).tool_name a ha
                  (p.stages.getD idx dummyStage) wd
                  (mergeEnv p.env (p.stages.getD idx dummyStage).env)
                  resolved fs₁ result fs₂ hrun q e he'
            by_cases hsucc : result.success = true
            · rw [if_pos hsucc] at h
              have hstore := storeStep_entries opts cacheOpt ib now fs₂
                (p.stages.getD idx dummyStage) result hsucc
              rcases ih _ _ res' fs' b h q e he with h1 | h1
              · rcases hstore q e h1 with h2 | h2
                · exact Or.inl (hfs₁ q e (hfs₂ q e h2))
                · exact Or.inr h2
              · exact Or.inr h1
            · rw [if_neg hsucc] at h
              by_cases haf : (p.stages.getD idx dummyStage).allow_failure = true
              · rw [if_neg (not_not_intro haf)] at h
                rcases ih fs₂ _ res' fs' b h q e he with h1 | h1
                · exact Or.inl (hfs₁ q e (hfs₂ q e h1))
                · exact Or.inr h1
              · rw [if_pos haf] at h
                simp only [Except.ok.injEq, Prod.mk.injEq] at h
                obtain ⟨-, rfl, -⟩ := h
                exact Or.inl (hfs₁ q e (hfs₂ q e he))

end Conflow
namespace Conflow

def c4Result : ExecutionResult :=
  { success := true, stdout := "out", stderr := "", exit_code := 0,
    outputs := [], duration := 0, cache_hit := false }

def c4Adapters : String → Option Adapter := fun _ => some (constAdapter c4Result)

def c4Stage : Stage := vetStage "gen" []

def c4Pipeline : Pipeline := { name := "c4", stages := [c4Stage] }

def c4Fs0 : Fs := { cwd := "/w", files := [] }

def c4Entry : CachedEntry :=
  { timestamp := 0, stage_name := "gen",
    cache_key := wCache.cacheKey wIb c4Stage,
    result := CachedResult.ofResult c4Result }

def c4FsFinal : Fs :=
  c4Fs0.write (wCache.cachePath (wCache.cacheKey wIb c4Stage)) (.entry c4Entry)

theorem c4Preserves : PreservesEntries c4Adapters := by
  intro t a ha stage wd env resolved fs r fs' hrun q e he
  obtain rfl := Option.some.inj ha
  replace hrun : (Except.ok (c4Result, fs) :
      Except ConflowError (ExecutionResult × Fs)) = .ok (r, fs') := hrun
  simp only [Except.ok.injEq, Prod.mk.injEq] at hrun
  obtain ⟨-, rfl⟩ := hrun
  exact he

/-- Witness for C4: a one-stage run whose successful result lands in the
cache satisfies the entry-provenance bound. -/
theorem only_successful_results_cached_witness :
    entryAt c4Fs0
      (c4Fs0.resolve (wCache.cachePath (wCache.cacheKey wIb c4Stage)))
      c4Entry ∨ c4Entry.result.success = true :=
  only_successful_results_cached c4Pipeline "/w" {} (some wCache) wIb
    c4Adapters 0 c4Preserves [0] c4Fs0 [] [("gen", c4Result)] c4FsFinal true
    (by decide)
    (c4Fs0.resolve (wCache.cachePath (wCache.cacheKey wIb c4Stage)))
    c4Entry (by unfold entryAt; decide)

end Conflow
namespace Conflow

/-! ### C9: stage conditions are never consulted -/

def c9Stage : Stage :=
  { name := "gen", tool := .cue .vet [] [] none, input := .single "*.json",
    condition := some .never }

def c9Pipeline : Pipeline := { name := "c9", stages := [c9Stage] }

def c9Entry : CachedEntry :=
  { timestamp := 0, stage_name := "gen",
    cache_key := wCache.cacheKey wIb c9Stage,
    result := { success := true, stdout := "cached", stderr := "",
                exit_code := 0, outputs := [], duration_ms := 7 } }

def c9Fs : Fs :=
  { cwd := "/w",
    files := [(wCache.cachePath (wCache.cacheKey wIb c9Stage),
               .entry c9Entry)] }

/-- Claim **C9.**  A stage whose `condition` field is `Never` — "never run
(skip)" — is not skipped: `PipelineExecutor::execute` never reads the
`condition` field, so the stage is fingerprinted, the cache is probed, a
hit is consumed, and a result for the stage is recorded in the per-run
table. -/
theorem condition_never_still_fingerprints_and_records :
    c9Stage.condition = some .never ∧
    PipelineExecutor.execute c9Pipeline "/w" {} (some wCache) wIb
      (fun _ => none) 0 c9Fs =
      .ok ({ results := [("gen", c9Entry.result.toResult)],
             success := true }, c9Fs) := by
  refine ⟨rfl, ?_⟩
  decide

end Conflow
namespace Conflow

/-! ### C10: shell outputs are recorded verbatim and staleness-checked
against the current directory -/

/-- Claim **C10.**  For a shell stage with a declared output and a successful
command: the shell adapter reports the declared path verbatim; the
CUE/Nickel adapters instead report the workspace-joined path they wrote;
and the cache's staleness check resolves each recorded output against the
process's current directory, so a verbatim relative path is evicted as
stale even when the file exists under the workspace root. -/
theorem shell_verbatim_output_checked_against_cwd
    (stage : Stage) (cmd sh : String) (o : Output) (out : ProcOutput)
    (h1 : stage.tool = .shell cmd sh)
    (h2 : stage.output = some o)
    (h3 : out.success = true) :
    (∃ r, ShellExecutor.execute stage out = .ok r ∧ r.outputs = [o.path]) ∧
    (∀ wd stdout fs,
      (CueExecutor.write_output stage stdout wd fs).1 =
        [pathJoin wd o.path]) ∧
    (∀ (c : FilesystemCache) (ib : Stage → String) (fs : Fs)
       (e : CachedEntry) (d : FileData),
      fs.lookup (c.cachePath (c.cacheKey ib stage)) = some (.entry e) →
      e.result.outputs = [o.path] →
      (pathJoin c.base_dir o.path, d) ∈ fs.files →
      fs.pathExists o.path = false →
      c.get ib fs stage =
        .ok (fs.remove (c.cachePath (c.cacheKey ib stage)), none)) := by
  refine ⟨?_, ?_, ?_⟩
  · refine ⟨{ success := true, stdout := out.stdout, stderr := out.stderr,
              exit_code := 0, outputs := [o.path], duration := 0,
              cache_hit := false }, ?_, rfl⟩
    simp [ShellExecutor.execute, h1, h2, h3]
  · intro wd stdout fs
    simp [CueExecutor.write_output, h2]
  · intro c ib fs e d hl hout hmem hne
    have hpe : fs.pathExists (c.cachePath (c.cacheKey ib stage)) = true := by
      unfold Fs.pathExists
      rw [hl]
      rfl
    show (if ¬ fs.pathExists (c.cachePath (c.cacheKey ib stage)) then
        (Except.ok (fs, none) :
          Except ConflowError (Fs × Option ExecutionResult))
      else
        match fs.lookup (c.cachePath (c.cacheKey ib stage)) with
        | none => Except.ok (fs, none)
        | some (.plain _) =>
            Except.error (ConflowError.cacheError "Failed to parse cache entry")
        | some (.entry e) =>
            if e.result.outputs.all fs.pathExists then
              Except.ok (fs, some e.result.toResult)
            else
              Except.ok (fs.remove (c.cachePath (c.cacheKey ib stage)),
                none)) =
      Except.ok (fs.remove (c.cachePath (c.cacheKey ib stage)), none)
    rw [if_neg (by simp [hpe]), hl]
    show (if e.result.outputs.all fs.pathExists then
        (Except.ok (fs, some e.result.toResult) :
          Except ConflowError (Fs × Option ExecutionResult))
      else
        Except.ok (fs.remove (c.cachePath (c.cacheKey ib stage)), none)) =
      Except.ok (fs.remove (c.cachePath (c.cacheKey ib stage)), none)
    rw [hout]
    have hall : ([o.path].all fs.pathExists) = false := by
      simp [List.all, hne]
    rw [hall]
    rfl

def c10Stage : Stage :=
  { name := "sh", tool := .shell "touch out.txt" "bash",
    input := .single "*.txt", output := some (.file "out.txt") }

def c10Out : ProcOutput :=
  { success := true, code := 0, stdout := "", stderr := "" }

/-- Witness for C10 at a concrete shell stage. -/
theorem shell_verbatim_output_checked_against_cwd_witness :
    (∃ r, ShellExecutor.execute c10Stage c10Out = .ok r ∧
       r.outputs = [(Output.file "out.txt").path]) ∧
    (∀ wd stdout fs,
      (CueExecutor.write_output c10Stage stdout wd fs).1 =
        [pathJoin wd (Output.file "out.txt").path]) ∧
    (∀ (c : FilesystemCache) (ib : Stage → String) (fs : Fs)
       (e : CachedEntry) (d : FileData),
      fs.lookup (c.cachePath (c.cacheKey ib c10Stage)) = some (.entry e) →
      e.result.outputs = [(Output.file "out.txt").path] →
      (pathJoin c.base_dir (Output.file "out.txt").path, d) ∈ fs.files →
      fs.pathExists (Output.file "out.txt").path = false →
      c.get ib fs c10Stage =
        .ok (fs.remove (c.cachePath (c.cacheKey ib c10Stage)), none)) :=
  shell_verbatim_output_checked_against_cwd c10Stage "touch out.txt" "bash"
    (.file "out.txt") c10Out rfl rfl rfl

end Conflow
